import Mathlib

/-! # Event statistics (`events` package)

A shallow embedding of `src/events/eventutils.go`: the shared table
`eventMap.data : map[string][]int`, the write path
`PublishEvent → validateEvent → processEvent` and the read path `GetStats`.

Modelling conventions.

* Go's `int` is the 64-bit two's-complement integer: values are `Int`s and every
  addition is followed by `wrapInt`, division follows the Go rule for `/`.
* A run-time panic (index out of range, integer division by zero) is `none`.
* `eventMap.data` is an association list; the order of the list is the order in which
  one particular `range` loop visits the map.
* The library functions `strings.ToLower`, `json.Unmarshal` and `json.Marshal` are
  parameters of the functions that call them; `asciiToLower` is the instance used for
  closed examples. Where a statement is about the JSON boundary itself, `parseJson`,
  `unmarshalEvent` and `marshalAvgEvents` model what `encoding/json` does with the two
  structs.
* The goroutine and the channel of `PublishEvent` only hand the single update over and
  wait for it, so the call is modelled as the synchronous call of `processEvent`.
-/

namespace events

/-! ## Machine integers -/

/-- The smallest value of Go's `int` (64 bit). -/
def minInt : Int := -9223372036854775808

/-- The largest value of Go's `int` (64 bit). -/
def maxInt : Int := 9223372036854775807

/-- The values a Go `int` can hold. -/
def IsInt (x : Int) : Prop := minInt ≤ x ∧ x ≤ maxInt

instance (x : Int) : Decidable (IsInt x) := by
  unfold IsInt; exact inferInstance

/-- Two's-complement reduction of a mathematical integer to Go's `int`. -/
def wrapInt (x : Int) : Int :=
  (x + 9223372036854775808) % 18446744073709551616 - 9223372036854775808

/-- Go's `x / y` on `int`: a panic for `y = 0`, the quotient truncated towards zero
otherwise, where the one overflowing case `minInt / -1` yields `minInt`. -/
def goDiv (x y : Int) : Option Int :=
  if y = 0 then none
  else if x = minInt ∧ y = -1 then some minInt
  else some (Int.tdiv x y)

/-! ## Data model -/

set_option linter.dupNamespace false

/-- The Go struct `Event`: the decoded input record. -/
structure Event where
  Event : String
  Time : Int
  deriving DecidableEq, Repr

/-- The Go struct `AvgEvent`: one record of the statistics output. -/
structure AvgEvent where
  Event : String
  Avg : Int
  deriving DecidableEq, Repr

/-- The Go type `AvgEvents`. -/
abbrev AvgEvents := List AvgEvent

/-- The contents of `eventMap.data`, a `map[string][]int`. -/
abbrev Table := List (String × List Int)

/-- The map read `eventMap.data[k]` with its `ok` flag. -/
def Table.get : Table → String → Option (List Int)
  | [], _ => none
  | (k', v) :: rest, k => if k' = k then some v else Table.get rest k

/-- The map write `eventMap.data[k] = v`: the entry is replaced where the key is present
and added otherwise. -/
def Table.put : Table → String → List Int → Table
  | [], k, v => [(k, v)]
  | (k', v') :: rest, k, v =>
    if k' = k then (k, v) :: rest else (k', v') :: Table.put rest k v

/-- The keys of the map, in iteration order. -/
def Table.keys (t : Table) : List String := t.map Prod.fst

/-! ## The library functions, as far as closed examples need them -/

/-- Lower-casing of one ASCII letter, every other character is kept. -/
def lowerRune (c : Char) : Char :=
  if 65 ≤ c.toNat ∧ c.toNat ≤ 90 then Char.ofNat (c.toNat + 32) else c

/-- The restriction of `strings.ToLower` to what it does on ASCII letters. -/
def asciiToLower (s : String) : String := ⟨s.data.map lowerRune⟩

/-! ## The write path -/

/-- The Go function `validateEvent`; `none` is the `nil` error. -/
def validateEvent (incomingEvent : Event) : Option String :=
  if incomingEvent.Event = "" then
    some ("Invaild event: " ++ incomingEvent.Event)
  else if incomingEvent.Time < 0 then
    some ("Invaild time value: " ++ toString incomingEvent.Time)
  else none

/-- The Go function `processEvent` on the table; the outer `none` is a panic of one of
the indexed accesses `val[0]`, `eventMap.data[eventKey][1]`. -/
def processEvent (ToLower : String → String) (data : Table) (event : Event) :
    Option Table :=
  let eventKey := ToLower event.Event
  match data.get eventKey with
  | some val =>
    match val with
    | v0 :: v1 :: rest =>
      some (data.put eventKey (wrapInt (v0 + event.Time) :: wrapInt (v1 + 1) :: rest))
    | _ => none
  | none => some (data.put eventKey [event.Time, 1])

/-- The Go method `PublishEvent`: the result is the returned error (`none` for `nil`)
and the table after the call; the outer `none` is a panic inside `processEvent`. -/
def PublishEvent (Unmarshal : String → Except String Event) (ToLower : String → String)
    (data : Table) (input : String) : Option (Option String × Table) :=
  match Unmarshal input with
  | .error err => some (some err, data)
  | .ok incomingEvent =>
    match validateEvent incomingEvent with
    | some validationError => some (some validationError, data)
    | none =>
      match processEvent ToLower data incomingEvent with
      | some data' => some (none, data')
      | none => none

/-! ## The read path -/

/-- The body of the `range` loop of `GetStats` for one entry:
`AvgEvent{key, val[0] / val[1]}`. -/
def avgEvent (key : String) (val : List Int) : Option AvgEvent :=
  match val with
  | v0 :: v1 :: _ => (goDiv v0 v1).map fun avg => ⟨key, avg⟩
  | _ => none

/-- The records `avgStructs` collected by the `range` loop of `GetStats`. -/
def avgStructs : Table → Option AvgEvents
  | [] => some []
  | (key, val) :: rest =>
    match avgEvent key val with
    | some r =>
      match avgStructs rest with
      | some rs => some (r :: rs)
      | none => none
    | none => none

/-- The Go method `GetStats`: the returned string and the table after the call. -/
def GetStats (Marshal : AvgEvents → String) (data : Table) : Option (String × Table) :=
  (avgStructs data).map fun avgs => (Marshal avgs, data)

/-! ## Sequences of calls -/

/-- Successive calls of `processEvent`, one per event of the list. -/
def processEvents (ToLower : String → String) : Table → List Event → Option Table
  | data, [] => some data
  | data, e :: es =>
    match processEvent ToLower data e with
    | some data' => processEvents ToLower data' es
    | none => none

/-- Successive calls of `PublishEvent`, one per input of the list: the errors returned,
in order, and the final table. -/
def publishEvents (Unmarshal : String → Except String Event) (ToLower : String → String) :
    Table → List String → Option (List (Option String) × Table)
  | data, [] => some ([], data)
  | data, input :: inputs =>
    match PublishEvent Unmarshal ToLower data input with
    | some (err, data') =>
      match publishEvents Unmarshal ToLower data' inputs with
      | some (errs, data'') => some (err :: errs, data'')
      | none => none
    | none => none

/-- The events of a list that are stored under the key `k`. -/
def eventsAt (ToLower : String → String) (k : String) (es : List Event) : List Event :=
  es.filter fun e => ToLower e.Event = k

/-- The mathematical sum of the durations recorded under the key `k`. -/
def totalAt (ToLower : String → String) (k : String) (es : List Event) : Int :=
  ((eventsAt ToLower k es).map Event.Time).sum

/-- The number of events recorded under the key `k`. -/
def countAt (ToLower : String → String) (k : String) (es : List Event) : Nat :=
  (eventsAt ToLower k es).length

/-- The effect of one `processEvent` on the value stored under its key: `old` is the
result of the map read before the call. -/
def upsertVal (old : Option (List Int)) (d : Int) : Option (List Int) :=
  match old with
  | some (v0 :: v1 :: rest) => some (wrapInt (v0 + d) :: wrapInt (v1 + 1) :: rest)
  | some v => some v
  | none => some [d, 1]

/-- What `json.Unmarshal` into an `Event` returns on the inputs of `eventutils_test.go`
and of the examples of this file; the instance of the decoder used for closed examples.
Any other input is reported as an error. -/
def testUnmarshal (input : String) : Except String Event :=
  if input = "\x7b\"event\":\"jump\", \"time\":100\x7d" then .ok ⟨"jump", 100⟩
  else if input = "\x7b\"event\":\"run\", \"time\":75\x7d" then .ok ⟨"run", 75⟩
  else if input = "\x7b\"event\":\"jump\", \"time\":200\x7d" then .ok ⟨"jump", 200⟩
  else if input = "\x7b\"event\":\"jump\", \"time\":300\x7d" then .ok ⟨"jump", 300⟩
  else if input = "\x7b\"event\":\"Jump\", \"time\":50\x7d" then .ok ⟨"Jump", 50⟩
  else if input = "\x7b\"event\":\"jump\", \"time\":150\x7d" then .ok ⟨"jump", 150⟩
  else if input = "\x7b\"event\":\"jump\", \"time\":0\x7d" then .ok ⟨"jump", 0⟩
  else if input = "\x7b\"event\":\"jump\", \"time\":1\x7d" then .ok ⟨"jump", 1⟩
  else if input = "\x7b\"event\":\"jump\", \"time\":9223372036854775807\x7d" then
    .ok ⟨"jump", 9223372036854775807⟩
  else if input = "\x7b\"abcdef\":\"jump\", \"time\":100\x7d" then .ok ⟨"", 100⟩
  else if input = "\x7b\"event\":\"\"\x7d" then .ok ⟨"", 0⟩
  else if input = "\x7b\"event\":\"jump\", \"time\":-100\x7d" then .ok ⟨"jump", -100⟩
  else if input = "\x7b\"event\":\"jump\", \"time\":922337203685477580900\x7d" then
    .error ("json: cannot unmarshal number 922337203685477580900 into Go struct field "
      ++ "Event.time of type int")
  else if input = "\x7b\"event\":\"jump\", \"time\":1.123\x7d" then
    .error "json: cannot unmarshal number 1.123 into Go struct field Event.time of type int"
  else .error "invalid character"

/-- One call on the shared table: `PublishEvent(input)` or `processEvent(event, _)`. -/
inductive Call where
  | publish (input : String)
  | process (event : Event)
  deriving DecidableEq, Repr

/-- A sequence of calls, applied to the table one after the other; an error returned by
`PublishEvent` does not stop the sequence, a panic does. -/
def run (Unmarshal : String → Except String Event) (ToLower : String → String) :
    Table → List Call → Option Table
  | data, [] => some data
  | data, Call.publish input :: calls =>
    match PublishEvent Unmarshal ToLower data input with
    | some (_, data') => run Unmarshal ToLower data' calls
    | none => none
  | data, Call.process event :: calls =>
    match processEvent ToLower data event with
    | some data' => run Unmarshal ToLower data' calls
    | none => none

/-- The events of `TestPublishEventMultipleEntryConcurrent`: `jump` with the durations
`1, …, K`. -/
def jumps (K : Nat) : List Event :=
  (List.range K).map fun (i : Nat) => (⟨"jump", (i : Int) + 1⟩ : Event)

/-- Every entry is a pair whose count lies between `1` and `m`. -/
def CountsUpTo (m : Int) (t : Table) : Prop :=
  ∀ k v, t.get k = some v → ∃ s c, v = [s, c] ∧ 1 ≤ c ∧ c ≤ m

/-! ## Sequences of `PublishEvent` calls with rejected inputs -/

/-- The error that `PublishEvent` returns for an input from decoding and validation
alone, `none` where the event goes on to `processEvent`. -/
def errorOf (Unmarshal : String → Except String Event) (input : String) : Option String :=
  match Unmarshal input with
  | .error err => some err
  | .ok incomingEvent => validateEvent incomingEvent

/-- The events that a sequence of `PublishEvent` calls hands to `processEvent`: the
inputs that decode and pass `validateEvent`, in order. -/
def accepted (Unmarshal : String → Except String Event) : List String → List Event
  | [] => []
  | input :: inputs =>
    match Unmarshal input with
    | .error _ => accepted Unmarshal inputs
    | .ok incomingEvent =>
      match validateEvent incomingEvent with
      | some _ => accepted Unmarshal inputs
      | none => incomingEvent :: accepted Unmarshal inputs

/-- The smallest duration of a list of events (`0` for the empty list). -/
def minTime : List Event → Int
  | [] => 0
  | e :: es => es.foldl (fun m x => min m x.Time) e.Time

/-- The largest duration of a list of events (`0` for the empty list). -/
def maxTime : List Event → Int
  | [] => 0
  | e :: es => es.foldl (fun m x => max m x.Time) e.Time

/-! ## The JSON boundary -/

/-- Modelled from the spec: the JSON values that `json.Unmarshal` (package
`encoding/json`, not part of the sources) tells apart when it fills an `Event`. A number
is an integer literal with its value, or a literal with a fraction or an exponent; the
contents of arrays and objects are never looked at. -/
inductive JsonValue where
  | null
  | bool (b : Bool)
  | integer (n : Int)
  | real
  | string (s : String)
  | array
  | object
  deriving DecidableEq, Repr

/-- The two fields of the Go struct `Event`, with the tags `json:"event"` and
`json:"time"`. -/
inductive Field where
  | event
  | time
  deriving DecidableEq, Repr

/-- A parsed JSON text, as far as decoding into an `Event` depends on it: `null`, an
object with its members in the order of the text, or a value of another kind. -/
inductive JsonText where
  | null
  | object (members : List (String × JsonValue))
  | other
  deriving DecidableEq, Repr

/-- Modelled from the spec: the field of `Event` that a member key of the input denotes;
the tag names count without regard to ASCII case. -/
def tagField (key : String) : Option Field :=
  if asciiToLower key = "event" then some Field.event
  else if asciiToLower key = "time" then some Field.time
  else none

/-- Modelled from the spec: what `json.Unmarshal` does with one member of the input
object (`encoding/json` is not part of the sources). A member whose key denotes no field
is skipped; `null` leaves the field as it is; a string is stored into `Event` and an
integer literal within the range of `int` into `Time`, replacing what an earlier member
stored; any other value for a field is an error. -/
def decodeMember (fieldOf : String → Option Field) (ev : Event)
    (member : String × JsonValue) : Except String Event :=
  match fieldOf member.1 with
  | none => .ok ev
  | some Field.event =>
    match member.2 with
    | JsonValue.null => .ok ev
    | JsonValue.string s => .ok { ev with Event := s }
    | _ => .error "json: cannot unmarshal into Go struct field Event.event of type string"
  | some Field.time =>
    match member.2 with
    | JsonValue.null => .ok ev
    | JsonValue.integer n =>
      if minInt ≤ n ∧ n ≤ maxInt then .ok { ev with Time := n }
      else .error "json: cannot unmarshal number into Go struct field Event.time of type int"
    | _ => .error "json: cannot unmarshal into Go struct field Event.time of type int"

/-- Modelled from the spec: the members of the input object, decoded from left to
right. -/
def decodeMembers (fieldOf : String → Option Field) :
    Event → List (String × JsonValue) → Except String Event
  | ev, [] => .ok ev
  | ev, member :: members =>
    match decodeMember fieldOf ev member with
    | .ok ev' => decodeMembers fieldOf ev' members
    | .error err => .error err

/-- Modelled from the spec: `json.Unmarshal([]byte(input), &incomingEvent)` with
`incomingEvent := Event{}`; `parse` is the syntax of JSON, an error for a text that is
not JSON. -/
def unmarshalEvent (fieldOf : String → Option Field)
    (parse : String → Except String JsonText) (input : String) : Except String Event :=
  match parse input with
  | .error err => .error err
  | .ok JsonText.null => .ok ⟨"", 0⟩
  | .ok (JsonText.object members) => decodeMembers fieldOf ⟨"", 0⟩ members
  | .ok JsonText.other => .error "json: cannot unmarshal into Go value of type events.Event"

/-- The double quote that opens and closes a JSON string. -/
def quoteChar : Char := Char.ofNat 34
/-- The backslash that starts an escape in a JSON string. -/
def backslashChar : Char := Char.ofNat 92
/-- The brace that opens a JSON object. -/
def openBrace : Char := Char.ofNat 123
/-- The brace that closes a JSON object. -/
def closeBrace : Char := Char.ofNat 125
/-- The rune `U+FFFD` that stands for an unpaired surrogate. -/
def replacementChar : Char := Char.ofNat 65533

/-- JSON white space: space, tab, line feed, carriage return. -/
def isSpace (c : Char) : Bool := c = ' ' || c = '\t' || c = '\n' || c = '\r'

/-- The text after its leading white space. -/
def skipSpace : List Char → List Char
  | [] => []
  | c :: cs => if isSpace c then skipSpace cs else c :: cs

/-- The value of a hexadecimal digit. -/
def hexDigit (c : Char) : Option Nat :=
  if '0' ≤ c ∧ c ≤ '9' then some (c.toNat - 48)
  else if 'a' ≤ c ∧ c ≤ 'f' then some (c.toNat - 87)
  else if 'A' ≤ c ∧ c ≤ 'F' then some (c.toNat - 55)
  else none

/-- The four hexadecimal digits of a `\\u` escape. -/
def hex4 : List Char → Option (Nat × List Char)
  | a :: b :: c :: d :: rest =>
    match hexDigit a, hexDigit b, hexDigit c, hexDigit d with
    | some x, some y, some z, some w => some (((x * 16 + y) * 16 + z) * 16 + w, rest)
    | _, _, _, _ => none
  | _ => none

/-- The rune of a `\\u` escape, read after the `u`: two escapes that form a surrogate
pair give one rune, a surrogate without its partner gives `U+FFFD`. -/
def unescapeU (cs : List Char) : Option (Char × List Char) :=
  match hex4 cs with
  | none => none
  | some (hi, rest) =>
    if 55296 ≤ hi ∧ hi < 56320 then
      match rest with
      | b :: u :: rest' =>
        if b = backslashChar ∧ u = 'u' then
          match hex4 rest' with
          | some (lo, rest'') =>
            if 56320 ≤ lo ∧ lo < 57344 then
              some (Char.ofNat (65536 + (hi - 55296) * 1024 + (lo - 56320)), rest'')
            else some (replacementChar, rest)
          | none => some (replacementChar, rest)
        else some (replacementChar, rest)
      | _ => some (replacementChar, rest)
    else if 56320 ≤ hi ∧ hi < 57344 then some (replacementChar, rest)
    else some (Char.ofNat hi, rest)

/-- The rune of a one-letter escape. -/
def unescape (c : Char) : Option Char :=
  if c = quoteChar then some quoteChar
  else if c = backslashChar then some backslashChar
  else if c = '/' then some '/'
  else if c = 'b' then some (Char.ofNat 8)
  else if c = 'f' then some (Char.ofNat 12)
  else if c = 'n' then some (Char.ofNat 10)
  else if c = 'r' then some (Char.ofNat 13)
  else if c = 't' then some (Char.ofNat 9)
  else none

/-- A JSON string, read after its opening quote: the decoded string and the rest of the
text. A control character and an unknown escape are errors. -/
def scanString : Nat → List Char → List Char → Option (String × List Char)
  | 0, _, _ => none
  | _ + 1, [], _ => none
  | fuel + 1, c :: rest, acc =>
    if c = quoteChar then some (⟨acc.reverse⟩, rest)
    else if c = backslashChar then
      match rest with
      | [] => none
      | e :: rest' =>
        if e = 'u' then
          match unescapeU rest' with
          | some (ch, rest'') => scanString fuel rest'' (ch :: acc)
          | none => none
        else
          match unescape e with
          | some ch => scanString fuel rest' (ch :: acc)
          | none => none
    else if c.toNat < 32 then none
    else scanString fuel rest (c :: acc)

/-- The leading decimal digits of the text, and the rest. -/
def takeDigits : List Char → List Char × List Char
  | [] => ([], [])
  | c :: cs =>
    if c.isDigit then ((c :: (takeDigits cs).1), (takeDigits cs).2) else ([], c :: cs)

/-- The number that a list of decimal digits denotes. -/
def digitsValue (ds : List Char) : Nat := ds.foldl (fun n c => 10 * n + (c.toNat - 48)) 0

/-- The optional exponent of a JSON number: whether there is one, and the rest. -/
def scanExponent (cs : List Char) : Option (Bool × List Char) :=
  match cs with
  | e :: rest =>
    if e = 'e' ∨ e = 'E' then
      let rest' := match rest with
        | s :: r => if s = '+' ∨ s = '-' then r else rest
        | [] => rest
      if (takeDigits rest').1 = [] then none else some (true, (takeDigits rest').2)
    else some (false, cs)
  | [] => some (false, cs)

/-- The optional fraction of a JSON number: whether there is one, and the rest. -/
def scanFraction (cs : List Char) : Option (Bool × List Char) :=
  match cs with
  | p :: rest =>
    if p = '.' then
      if (takeDigits rest).1 = [] then none else some (true, (takeDigits rest).2)
    else some (false, cs)
  | [] => some (false, cs)

/-- A JSON number: an optional minus sign, digits without a leading zero, an optional
fraction and exponent. -/
def scanNumber (cs : List Char) : Option (JsonValue × List Char) :=
  let neg := cs.head? = some '-'
  let cs1 := if neg then cs.drop 1 else cs
  let ds := (takeDigits cs1).1
  if ds = [] then none
  else if ds.head? = some '0' ∧ 1 < ds.length then none
  else
    match scanFraction (takeDigits cs1).2 with
    | none => none
    | some (frac, cs2) =>
      match scanExponent cs2 with
      | none => none
      | some (exp, cs3) =>
        if frac ∨ exp then some (JsonValue.real, cs3)
        else some (JsonValue.integer (if neg then -(digitsValue ds : Int) else digitsValue ds), cs3)

/-- The values `null`, `true`, `false`, or a number. -/
def scanLiteral (cs : List Char) : Option (JsonValue × List Char) :=
  if cs.take 4 = "null".data then some (JsonValue.null, cs.drop 4)
  else if cs.take 4 = "true".data then some (JsonValue.bool true, cs.drop 4)
  else if cs.take 5 = "false".data then some (JsonValue.bool false, cs.drop 5)
  else scanNumber cs

mutual
/-- Modelled from the spec: a JSON value, as `json.Unmarshal` (package `encoding/json`,
not part of the sources) reads it: the value and the rest of the text. The first argument
bounds the recursion by the length of the text, the second is the nesting depth, which
`encoding/json` limits to 10000. The contents of an array or object are checked and
dropped. -/
def scanValue : Nat → Nat → List Char → Option (JsonValue × List Char)
  | 0, _, _ => none
  | _ + 1, _, [] => none
  | fuel + 1, depth, c :: rest =>
    if c = quoteChar then
      (scanString (rest.length + 1) rest []).map fun r => (JsonValue.string r.1, r.2)
    else if c = openBrace then
      if 10000 ≤ depth then none
      else
        match skipSpace rest with
        | [] => none
        | c' :: rest' =>
          if c' = closeBrace then some (JsonValue.object, rest')
          else (scanMembers fuel (depth + 1) (c' :: rest')).map fun r => (JsonValue.object, r.2)
    else if c = '[' then
      if 10000 ≤ depth then none
      else
        match skipSpace rest with
        | [] => none
        | c' :: rest' =>
          if c' = ']' then some (JsonValue.array, rest')
          else (scanElements fuel (depth + 1) (c' :: rest')).map fun r => (JsonValue.array, r)
    else scanLiteral (c :: rest)
/-- Modelled from the spec: the elements of a JSON array up to its closing bracket; the
rest of the text. -/
def scanElements : Nat → Nat → List Char → Option (List Char)
  | 0, _, _ => none
  | fuel + 1, depth, cs =>
    match scanValue fuel depth cs with
    | none => none
    | some (_, rest) =>
      match skipSpace rest with
      | [] => none
      | c :: rest' =>
        if c = ',' then scanElements fuel depth (skipSpace rest')
        else if c = ']' then some rest'
        else none
/-- Modelled from the spec: the members of a JSON object up to its closing brace, in the
order of the text, and the rest of the text. -/
def scanMembers : Nat → Nat → List Char → Option (List (String × JsonValue) × List Char)
  | 0, _, _ => none
  | _ + 1, _, [] => none
  | fuel + 1, depth, c :: rest =>
    if c = quoteChar then
      match scanString (rest.length + 1) rest [] with
      | none => none
      | some (key, rest1) =>
        match skipSpace rest1 with
        | [] => none
        | c1 :: rest2 =>
          if c1 = ':' then
            match scanValue fuel depth (skipSpace rest2) with
            | none => none
            | some (v, rest3) =>
              match skipSpace rest3 with
              | [] => none
              | c2 :: rest4 =>
                if c2 = ',' then
                  (scanMembers fuel depth (skipSpace rest4)).map fun r => ((key, v) :: r.1, r.2)
                else if c2 = closeBrace then some ([(key, v)], rest4)
                else none
          else none
    else none
end

/-- Modelled from the spec: the JSON text of an input, an error for a text that is not
JSON (the wording of the error is not modelled). -/
def parseJson (input : String) : Except String JsonText :=
  match skipSpace input.data with
  | [] => .error "unexpected end of JSON input"
  | c :: rest =>
    if c = openBrace then
      match skipSpace rest with
      | [] => .error "unexpected end of JSON input"
      | c' :: rest' =>
        if c' = closeBrace then
          if skipSpace rest' = [] then .ok (JsonText.object []) else .error "invalid character"
        else
          match scanMembers (input.length + 1) 1 (c' :: rest') with
          | none => .error "invalid character"
          | some (members, rest'') =>
            if skipSpace rest'' = [] then .ok (JsonText.object members)
            else .error "invalid character"
    else
      match scanValue (input.length + 1) 0 (c :: rest) with
      | none => .error "invalid character"
      | some (v, rest') =>
        if skipSpace rest' = [] then
          .ok (if v = JsonValue.null then JsonText.null else JsonText.other)
        else .error "invalid character"

/-- The string that a member stores into `Event`: the member denotes `event` and its
value is a string. -/
def eventOf (m : String × JsonValue) : Option String :=
  match tagField m.1, m.2 with
  | some Field.event, JsonValue.string s => some s
  | _, _ => none

/-- The integer that a member stores into `Time`: the member denotes `time` and its value
is an integer literal. -/
def timeOf (m : String × JsonValue) : Option Int :=
  match tagField m.1, m.2 with
  | some Field.time, JsonValue.integer n => some n
  | _, _ => none

/-- The string of the last member that stores one into `Event`, `none` when there is no
such member. -/
def lastEvent : List (String × JsonValue) → Option String
  | [] => none
  | m :: ms =>
    match lastEvent ms with
    | some s => some s
    | none => eventOf m

/-- The integer of the last member that stores one into `Time`, `none` when there is no
such member. -/
def lastTime : List (String × JsonValue) → Option Int
  | [] => none
  | m :: ms =>
    match lastTime ms with
    | some n => some n
    | none => timeOf m

/-- The members that decoding accepts: a key that denotes no field, the value `null`, a
string for `event`, an integer literal within the range of `int` for `time`. -/
def fitsField (m : String × JsonValue) : Bool :=
  match tagField m.1, m.2 with
  | none, _ => true
  | some _, JsonValue.null => true
  | some Field.event, JsonValue.string _ => true
  | some Field.time, JsonValue.integer n => decide (minInt ≤ n ∧ n ≤ maxInt)
  | some _, _ => false

/-- The members that can change the decoded event: the key denotes `event` or `time`
and the value is not `null`. -/
def countsFor (m : String × JsonValue) : Bool :=
  decide ((asciiToLower m.1 = "event" ∨ asciiToLower m.1 = "time") ∧ m.2 ≠ JsonValue.null)

/-- Modelled from the spec: what `json.Marshal` returns for the non-nil slice
`avgStructs` (`encoding/json` is not part of the sources): a JSON array of objects with
the members `event` and `avg`, in the order of the slice; `quote` is the encoding of a
Go string as a JSON string. -/
def marshalAvgEvents (quote : String → String) (avgs : AvgEvents) : String :=
  "[" ++ ",".intercalate (avgs.map fun a =>
    "\x7b\"event\":" ++ quote a.Event ++ ",\"avg\":" ++ toString a.Avg ++ "\x7d") ++ "]"

/-- The JSON string of a Go string in which no character needs escaping. -/
def plainQuote (s : String) : String := "\"" ++ s ++ "\""

/-! ## Machine integers: basic facts -/

theorem wrapInt_isInt (x : Int) : IsInt (wrapInt x) := by
  unfold IsInt wrapInt minInt maxInt
  omega

theorem wrapInt_of_isInt {x : Int} (h : IsInt x) : wrapInt x = x := by
  unfold IsInt minInt maxInt at h
  unfold wrapInt
  omega

theorem wrapInt_wrapInt_add (x y : Int) : wrapInt (wrapInt x + y) = wrapInt (x + y) := by
  unfold wrapInt
  omega

theorem isInt_one : IsInt 1 := by
  unfold IsInt minInt maxInt
  omega

theorem wrapInt_one : wrapInt 1 = 1 := wrapInt_of_isInt isInt_one

theorem goDiv_of_pos {x y : Int} (hy : 1 ≤ y) : goDiv x y = some (Int.tdiv x y) := by
  unfold goDiv
  have h0 : ¬ y = 0 := by omega
  have h1 : ¬ (x = minInt ∧ y = -1) := by
    rintro ⟨_, h⟩
    omega
  simp [h0, h1]

/-! ## The table: reads after writes -/

theorem Table.get_put (t : Table) (k k' : String) (v : List Int) :
    (t.put k v).get k' = if k = k' then some v else t.get k' := by
  induction t with
  | nil =>
    simp [Table.put, Table.get]
  | cons p rest ih =>
    obtain ⟨a, b⟩ := p
    by_cases hak : a = k
    · subst hak
      by_cases hak' : a = k' <;> simp [Table.put, Table.get, hak']
    · by_cases hak' : a = k'
      · subst hak'
        have : ¬ k = a := fun h => hak h.symm
        simp [Table.put, Table.get, hak, this]
      · simp [Table.put, Table.get, hak, hak', ih]

theorem Table.get_put_self (t : Table) (k : String) (v : List Int) :
    (t.put k v).get k = some v := by
  simp [Table.get_put]

theorem Table.get_put_of_ne (t : Table) {k k' : String} (v : List Int) (h : k ≠ k') :
    (t.put k v).get k' = t.get k' := by
  simp [Table.get_put, h]

theorem Table.get_eq_none_iff (t : Table) (k : String) :
    t.get k = none ↔ k ∉ t.keys := by
  induction t with
  | nil => simp [Table.get, Table.keys]
  | cons p rest ih =>
    obtain ⟨a, b⟩ := p
    by_cases hak : a = k
    · simp [Table.get, Table.keys, hak]
    · have hka : ¬ k = a := fun h => hak h.symm
      simp only [Table.keys] at ih
      simp [Table.get, Table.keys, hak, hka, ih]

theorem Table.get_of_mem {t : Table} (hn : t.keys.Nodup) {k : String} {v : List Int}
    (h : (k, v) ∈ t) : t.get k = some v := by
  induction t with
  | nil => cases h
  | cons p rest ih =>
    obtain ⟨a, b⟩ := p
    simp only [Table.keys, List.map_cons, List.nodup_cons] at hn
    rcases List.mem_cons.1 h with h | h
    · cases h
      simp [Table.get]
    · have hne : ¬ a = k := by
        intro hak
        subst hak
        exact hn.1 (List.mem_map.2 ⟨(a, v), h, rfl⟩)
      simp only [Table.get, hne, if_false]
      exact ih hn.2 h

theorem Table.mem_of_get {t : Table} {k : String} {v : List Int}
    (h : t.get k = some v) : (k, v) ∈ t := by
  induction t with
  | nil => simp [Table.get] at h
  | cons p rest ih =>
    obtain ⟨a, b⟩ := p
    by_cases hak : a = k
    · subst hak
      simp [Table.get] at h
      simp [h]
    · simp only [Table.get, hak, if_false] at h
      exact List.mem_cons_of_mem _ (ih h)

theorem Table.keys_put (t : Table) (k : String) (v : List Int) :
    (t.put k v).keys = if k ∈ t.keys then t.keys else t.keys ++ [k] := by
  induction t with
  | nil => simp [Table.put, Table.keys]
  | cons p rest ih =>
    obtain ⟨a, b⟩ := p
    by_cases hak : a = k
    · subst hak
      simp [Table.put, Table.keys]
    · have hka : ¬ k = a := fun h => hak h.symm
      simp only [Table.keys] at ih
      by_cases hmem : k ∈ List.map Prod.fst rest
      · simp [Table.put, Table.keys, hak, hka, ih, hmem]
      · simp [Table.put, Table.keys, hak, hka, ih, hmem]

theorem Table.nodup_put {t : Table} (hn : t.keys.Nodup) (k : String) (v : List Int) :
    (t.put k v).keys.Nodup := by
  rw [Table.keys_put]
  by_cases hmem : k ∈ t.keys
  · simpa [hmem] using hn
  · simp only [hmem, if_false]
    exact List.Nodup.append hn (List.nodup_singleton k) (by simpa using hmem)

/-! ## One call of `processEvent` -/

theorem processEvent_eq (ToLower : String → String) (data : Table) (e : Event)
    (h : ∀ v, data.get (ToLower e.Event) = some v → 2 ≤ v.length) :
    ∃ v, upsertVal (data.get (ToLower e.Event)) e.Time = some v ∧ 2 ≤ v.length ∧
      processEvent ToLower data e = some (data.put (ToLower e.Event) v) := by
  unfold processEvent
  cases hg : data.get (ToLower e.Event) with
  | none =>
    exact ⟨[e.Time, 1], by simp [upsertVal], by simp, by simp [hg]⟩
  | some val =>
    have hlen := h val hg
    match val, hlen with
    | v0 :: v1 :: rest, _ =>
      exact ⟨wrapInt (v0 + e.Time) :: wrapInt (v1 + 1) :: rest, by simp [upsertVal],
        by simp, by simp [hg]⟩

theorem processEvent_nodup {ToLower : String → String} {data data' : Table} {e : Event}
    (hn : data.keys.Nodup) (h : processEvent ToLower data e = some data') :
    data'.keys.Nodup := by
  unfold processEvent at h
  cases hg : data.get (ToLower e.Event) with
  | none =>
    simp [hg] at h
    subst h
    exact Table.nodup_put hn _ _
  | some val =>
    match val with
    | [] => simp [hg] at h
    | [_] => simp [hg] at h
    | v0 :: v1 :: rest =>
      simp [hg] at h
      subst h
      exact Table.nodup_put hn _ _

/-! ## Sequences of calls of `processEvent` -/

theorem eventsAt_cons (ToLower : String → String) (k : String) (e : Event)
    (es : List Event) :
    eventsAt ToLower k (e :: es)
      = if ToLower e.Event = k then e :: eventsAt ToLower k es else eventsAt ToLower k es := by
  unfold eventsAt
  by_cases h : ToLower e.Event = k <;> simp [List.filter_cons, h]

theorem processEvents_get (ToLower : String → String) (es : List Event) :
    ∀ data : Table,
      (∀ e ∈ es, ∀ v, data.get (ToLower e.Event) = some v → 2 ≤ v.length) →
      ∃ t, processEvents ToLower data es = some t ∧
        ∀ k, t.get k
          = ((eventsAt ToLower k es).map Event.Time).foldl upsertVal (data.get k) := by
  induction es with
  | nil =>
    intro data _
    exact ⟨data, rfl, fun k => by simp [eventsAt]⟩
  | cons e es ih =>
    intro data h
    obtain ⟨v, hv, hlen, hstep⟩ :=
      processEvent_eq ToLower data e (h e (List.mem_cons_self _ _))
    have h' : ∀ e' ∈ es, ∀ v', (data.put (ToLower e.Event) v).get (ToLower e'.Event) = some v' →
        2 ≤ v'.length := by
      intro e' he' v' hv'
      rw [Table.get_put] at hv'
      by_cases hk : ToLower e.Event = ToLower e'.Event
      · simp only [hk, if_true, Option.some.injEq] at hv'
        subst hv'
        exact hlen
      · simp only [hk, if_false] at hv'
        exact h e' (List.mem_cons_of_mem _ he') v' hv'
    obtain ⟨t, ht, hget⟩ := ih (data.put (ToLower e.Event) v) h'
    refine ⟨t, by simp [processEvents, hstep, ht], fun k => ?_⟩
    rw [hget k, Table.get_put, eventsAt_cons]
    by_cases hk : ToLower e.Event = k
    · subst hk
      simp [hv]
    · simp [hk]

theorem processEvents_nodup (ToLower : String → String) (es : List Event) :
    ∀ data t : Table, data.keys.Nodup → processEvents ToLower data es = some t →
      t.keys.Nodup := by
  induction es with
  | nil =>
    intro data t hn h
    simp [processEvents] at h
    subst h
    exact hn
  | cons e es ih =>
    intro data t hn h
    simp only [processEvents] at h
    cases hp : processEvent ToLower data e with
    | none => simp [hp] at h
    | some data' =>
      simp only [hp] at h
      exact ih data' t (processEvent_nodup hn hp) h

/-! ## The stored value in closed form -/

theorem foldl_upsertVal_pair (ds : List Int) :
    ∀ s c : Int, IsInt s → IsInt c →
      ds.foldl upsertVal (some [s, c])
        = some [wrapInt (s + ds.sum), wrapInt (c + ds.length)] := by
  induction ds with
  | nil =>
    intro s c hs hc
    simp [wrapInt_of_isInt hs, wrapInt_of_isInt hc]
  | cons d ds ih =>
    intro s c _ _
    simp only [List.foldl_cons, upsertVal]
    rw [ih _ _ (wrapInt_isInt _) (wrapInt_isInt _), wrapInt_wrapInt_add, wrapInt_wrapInt_add]
    simp only [List.sum_cons, List.length_cons, Nat.cast_add, Nat.cast_one]
    rw [show s + d + ds.sum = s + (d + ds.sum) by ring,
      show c + 1 + (ds.length : Int) = c + ((ds.length : Int) + 1) by ring]

theorem foldl_upsertVal_none (d : Int) (ds : List Int) (hd : IsInt d) :
    (d :: ds).foldl upsertVal none
      = some [wrapInt (d :: ds).sum, wrapInt ((d :: ds).length : Nat)] := by
  simp only [List.foldl_cons, upsertVal]
  rw [foldl_upsertVal_pair ds d 1 hd isInt_one]
  simp only [List.sum_cons, List.length_cons, Nat.cast_add, Nat.cast_one]
  rw [show (1 : Int) + (ds.length : Int) = (ds.length : Int) + 1 by ring]

theorem processEvents_nil (ToLower : String → String) (es : List Event)
    (hes : ∀ e ∈ es, IsInt e.Time) :
    ∃ t, processEvents ToLower [] es = some t ∧ t.keys.Nodup ∧
      ∀ k, t.get k
        = if countAt ToLower k es = 0 then none
          else some [wrapInt (totalAt ToLower k es), wrapInt (countAt ToLower k es)] := by
  obtain ⟨t, ht, hget⟩ := processEvents_get ToLower es [] (by simp [Table.get])
  refine ⟨t, ht, processEvents_nodup ToLower es [] t (by simp [Table.keys]) ht, fun k => ?_⟩
  rw [hget k]
  unfold countAt totalAt
  cases hm : eventsAt ToLower k es with
  | nil => simp [Table.get]
  | cons e rest =>
    have he : e ∈ es := by
      have : e ∈ eventsAt ToLower k es := by simp [hm]
      exact (List.mem_filter.1 this).1
    simp only [List.map_cons, Table.get]
    rw [foldl_upsertVal_none _ _ (hes e he)]
    simp

theorem totalAt_perm (ToLower : String → String) (k : String) {es es' : List Event}
    (h : es.Perm es') : totalAt ToLower k es' = totalAt ToLower k es := by
  unfold totalAt eventsAt
  exact (((h.filter _).map _).sum_eq).symm

theorem countAt_perm (ToLower : String → String) (k : String) {es es' : List Event}
    (h : es.Perm es') : countAt ToLower k es' = countAt ToLower k es := by
  unfold countAt eventsAt
  exact ((h.filter _).length_eq).symm

theorem countAt_pos_iff (ToLower : String → String) (k : String) (es : List Event) :
    countAt ToLower k es ≠ 0 ↔ ∃ e ∈ es, ToLower e.Event = k := by
  unfold countAt eventsAt
  rw [Ne, List.length_eq_zero, List.filter_eq_nil_iff]
  simp

/-! ## `PublishEvent` in terms of `processEvent` -/

theorem validateEvent_eq_none_iff (e : Event) :
    validateEvent e = none ↔ e.Event ≠ "" ∧ 0 ≤ e.Time := by
  unfold validateEvent
  by_cases h1 : e.Event = ""
  · simp [h1]
  · by_cases h2 : e.Time < 0
    · simp [h1, h2]
    · simp [h1, h2, Int.not_lt.1 h2]

theorem PublishEvent_of_valid (Unmarshal : String → Except String Event)
    (ToLower : String → String) (data : Table) (input : String) (e : Event)
    (hdec : Unmarshal input = .ok e) (hname : e.Event ≠ "") (hd : 0 ≤ e.Time) :
    PublishEvent Unmarshal ToLower data input
      = (processEvent ToLower data e).map fun data' => (none, data') := by
  have hv : validateEvent e = none := (validateEvent_eq_none_iff e).2 ⟨hname, hd⟩
  unfold PublishEvent
  simp only [hdec, hv]
  cases processEvent ToLower data e <;> rfl

/-! ## The read path: facts -/

theorem tdiv_truncates (s c : Int) (hc : 1 ≤ c) :
    |Int.tdiv s c| * c ≤ |s| ∧ |s| < (|Int.tdiv s c| + 1) * c ∧
      (0 ≤ s → 0 ≤ Int.tdiv s c) ∧ (s ≤ 0 → Int.tdiv s c ≤ 0) := by
  have hc0 : (0 : Int) ≤ c := by omega
  have hcpos : (0 : Int) < c := by omega
  rcases le_total 0 s with hs | hs
  · have hq : Int.tdiv s c = s / c := Int.tdiv_eq_ediv hs hc0
    have hq0 : 0 ≤ s / c := Int.ediv_nonneg hs hc0
    have h1 : s / c * c ≤ s := Int.ediv_mul_le s (by omega)
    have h2 : s < (s / c + 1) * c := Int.lt_ediv_add_one_mul_self s hcpos
    rw [hq, abs_of_nonneg hq0, abs_of_nonneg hs]
    exact ⟨h1, h2, fun _ => hq0, fun h => by
      have : s = 0 := le_antisymm h hs
      subst this
      simp⟩
  · have hns : 0 ≤ -s := by omega
    have hq : Int.tdiv s c = -((-s) / c) := by
      have : Int.tdiv (-(-s)) c = -(Int.tdiv (-s) c) := Int.neg_tdiv (-s) c
      rw [neg_neg] at this
      rw [this, Int.tdiv_eq_ediv hns hc0]
    have hq0 : 0 ≤ (-s) / c := Int.ediv_nonneg hns hc0
    have h1 : (-s) / c * c ≤ -s := Int.ediv_mul_le (-s) (by omega)
    have h2 : -s < ((-s) / c + 1) * c := Int.lt_ediv_add_one_mul_self (-s) hcpos
    rw [hq, abs_neg, abs_of_nonneg hq0, abs_of_nonpos hs]
    exact ⟨h1, h2, fun h => by
      have : s = 0 := le_antisymm hs h
      subst this
      simp, fun _ => by omega⟩

theorem avgEvent_pair (key : String) (s c : Int) (hc : 1 ≤ c) :
    avgEvent key [s, c] = some ⟨key, Int.tdiv s c⟩ := by
  simp [avgEvent, goDiv_of_pos hc]

theorem avgStructs_of_pairs (t : Table)
    (h : ∀ p ∈ t, ∃ s c, p.2 = [s, c] ∧ 1 ≤ c) :
    ∃ recs, avgStructs t = some recs ∧ recs.map AvgEvent.Event = t.keys ∧
      ∀ r, r ∈ recs ↔ ∃ s c, (r.Event, [s, c]) ∈ t ∧ r.Avg = Int.tdiv s c := by
  induction t with
  | nil => exact ⟨[], rfl, rfl, by simp⟩
  | cons p rest ih =>
    obtain ⟨k, v⟩ := p
    obtain ⟨s, c, hv, hc⟩ := h (k, v) (List.mem_cons_self _ _)
    simp only at hv
    subst hv
    obtain ⟨recs, hrecs, hkeys, hmem⟩ := ih fun p hp => h p (List.mem_cons_of_mem _ hp)
    refine ⟨⟨k, Int.tdiv s c⟩ :: recs, ?_, ?_, fun r => ?_⟩
    · simp [avgStructs, avgEvent_pair k s c hc, hrecs]
    · simp [Table.keys] at hkeys ⊢
      exact hkeys
    · rw [List.mem_cons, hmem r]
      constructor
      · rintro (hr | ⟨s', c', hin, havg⟩)
        · subst hr
          exact ⟨s, c, List.mem_cons_self _ _, rfl⟩
        · exact ⟨s', c', List.mem_cons_of_mem _ hin, havg⟩
      · rintro ⟨s', c', hin, havg⟩
        rcases List.mem_cons.1 hin with heq | hin
        · left
          cases r
          simp only [Prod.mk.injEq, List.cons.injEq, and_true] at heq
          obtain ⟨h1, h2, h3⟩ := heq
          simp only at h1 havg
          subst h1 h2 h3
          rw [havg]
        · exact Or.inr ⟨s', c', hin, havg⟩

theorem avgStructs_of_map (t : Table) (hmap : t.keys.Nodup)
    (hpairs : ∀ k v, t.get k = some v → ∃ s c, v = [s, c] ∧ 1 ≤ c) :
    ∃ recs, avgStructs t = some recs ∧ recs.map AvgEvent.Event = t.keys ∧
      ∀ r, r ∈ recs ↔ ∃ s c, t.get r.Event = some [s, c] ∧ r.Avg = Int.tdiv s c := by
  have hp : ∀ p ∈ t, ∃ s c, p.2 = [s, c] ∧ 1 ≤ c := by
    rintro ⟨k, v⟩ hmem
    exact hpairs k v (Table.get_of_mem hmap hmem)
  obtain ⟨recs, hrecs, hkeys, hmem⟩ := avgStructs_of_pairs t hp
  refine ⟨recs, hrecs, hkeys, fun r => ?_⟩
  rw [hmem r]
  constructor
  · rintro ⟨s, c, hin, havg⟩
    exact ⟨s, c, Table.get_of_mem hmap hin, havg⟩
  · rintro ⟨s, c, hget, havg⟩
    exact ⟨s, c, Table.mem_of_get hget, havg⟩

theorem publishEvents_of_valid (Unmarshal : String → Except String Event)
    (ToLower : String → String) (inputs : List String) :
    ∀ (es : List Event) (data : Table), inputs.map Unmarshal = es.map Except.ok →
      (∀ e ∈ es, e.Event ≠ "" ∧ 0 ≤ e.Time) →
      publishEvents Unmarshal ToLower data inputs
        = (processEvents ToLower data es).map fun t =>
            (List.replicate inputs.length none, t) := by
  induction inputs with
  | nil =>
    intro es data hdec _
    cases es with
    | nil => rfl
    | cons e es => simp at hdec
  | cons input inputs ih =>
    intro es data hdec hvalid
    cases es with
    | nil => simp at hdec
    | cons e es =>
      simp only [List.map_cons, List.cons.injEq] at hdec
      obtain ⟨hd, hrest⟩ := hdec
      have hv := hvalid e (List.mem_cons_self _ _)
      have hpub := PublishEvent_of_valid Unmarshal ToLower data input e hd hv.1 hv.2
      simp only [publishEvents, processEvents, hpub]
      cases hp : processEvent ToLower data e with
      | none => rfl
      | some data' =>
        simp only [Option.map_some']
        rw [ih es data' hrest fun e' he' => hvalid e' (List.mem_cons_of_mem _ he')]
        cases processEvents ToLower data' es <;> simp [List.replicate_succ]

theorem time_le_totalAt (ToLower : String → String) (es : List Event)
    (hnn : ∀ e ∈ es, 0 ≤ e.Time) (e : Event) (he : e ∈ es) :
    e.Time ≤ totalAt ToLower (ToLower e.Event) es := by
  unfold totalAt eventsAt
  apply List.single_le_sum
  · intro x hx
    obtain ⟨e', he', rfl⟩ := List.mem_map.1 hx
    exact hnn e' (List.mem_filter.1 he').1
  · exact List.mem_map.2 ⟨e, List.mem_filter.2 ⟨he, by simp⟩, rfl⟩

theorem totalAt_nonneg (ToLower : String → String) (k : String) (es : List Event)
    (hnn : ∀ e ∈ es, 0 ≤ e.Time) : 0 ≤ totalAt ToLower k es := by
  unfold totalAt eventsAt
  apply List.sum_nonneg
  intro x hx
  obtain ⟨e', he', rfl⟩ := List.mem_map.1 hx
  exact hnn e' (List.mem_filter.1 he').1

theorem countAt_le_length (ToLower : String → String) (k : String) (es : List Event) :
    countAt ToLower k es ≤ es.length := by
  unfold countAt eventsAt
  exact List.length_filter_le _ _

/-- The table after the valid events `es`, when no count and no sum leaves the range of
`int`: the key set, and the pair stored under every key. -/
theorem processEvents_nil_exact (ToLower : String → String) (es : List Event)
    (hnn : ∀ e ∈ es, 0 ≤ e.Time) (hsum : ∀ k, totalAt ToLower k es ≤ maxInt)
    (hlen : (es.length : Int) ≤ maxInt) :
    ∃ t, processEvents ToLower [] es = some t ∧ t.keys.Nodup ∧
      (∀ k v, t.get k = some v ↔
        (∃ e ∈ es, ToLower e.Event = k) ∧
          v = [totalAt ToLower k es, (countAt ToLower k es : Int)]) := by
  have hes : ∀ e ∈ es, IsInt e.Time := by
    intro e he
    have h1 := hnn e he
    have h2 := (time_le_totalAt ToLower es hnn e he).trans (hsum _)
    unfold IsInt minInt
    unfold maxInt at h2 ⊢
    omega
  obtain ⟨t, ht, hn, hget⟩ := processEvents_nil ToLower es hes
  refine ⟨t, ht, hn, fun k v => ?_⟩
  have hS : IsInt (totalAt ToLower k es) := by
    have h1 := totalAt_nonneg ToLower k es hnn
    have h2 := hsum k
    unfold IsInt minInt
    unfold maxInt at h2 ⊢
    omega
  have hC : IsInt (countAt ToLower k es : Int) := by
    have h1 : (countAt ToLower k es : Int) ≤ es.length := by
      exact_mod_cast countAt_le_length ToLower k es
    unfold IsInt minInt
    unfold maxInt at hlen ⊢
    omega
  rw [hget k, wrapInt_of_isInt hS, wrapInt_of_isInt hC, ← countAt_pos_iff]
  by_cases h0 : countAt ToLower k es = 0
  · simp [h0]
  · simp only [h0, if_false, Option.some.injEq, ne_eq, not_false_eq_true, true_and]
    exact eq_comm

theorem totalAt_le_sum (ToLower : String → String) (k : String) (es : List Event)
    (hnn : ∀ e ∈ es, 0 ≤ e.Time) : totalAt ToLower k es ≤ (es.map Event.Time).sum := by
  unfold totalAt eventsAt
  apply List.Sublist.sum_le_sum (List.Sublist.map _ (List.filter_sublist _))
  intro x hx
  obtain ⟨e, he, rfl⟩ := List.mem_map.1 hx
  exact hnn e he

/-! ## Lower-casing -/

theorem lowerRune_idem (c : Char) : lowerRune (lowerRune c) = lowerRune c := by
  by_cases h : 65 ≤ c.toNat ∧ c.toNat ≤ 90
  · have hc : c = Char.ofNat c.toNat := (Char.ofNat_toNat c).symm
    obtain ⟨h1, h2⟩ := h
    generalize c.toNat = n at hc h1 h2
    subst hc
    interval_cases n <;> decide
  · have : lowerRune c = c := by simp [lowerRune, h]
    rw [this, this]

theorem asciiToLower_idem (s : String) : asciiToLower (asciiToLower s) = asciiToLower s := by
  unfold asciiToLower
  simp [List.map_map, Function.comp_def, lowerRune_idem]

/-- Every key written by `processEvent` is a lower-cased name. -/
theorem processEvent_keys {ToLower : String → String} {data data' : Table} {e : Event}
    (P : String → Prop) (hkey : P (ToLower e.Event)) (hdata : ∀ k ∈ data.keys, P k)
    (h : processEvent ToLower data e = some data') : ∀ k ∈ data'.keys, P k := by
  have hput : ∀ v k, k ∈ (data.put (ToLower e.Event) v).keys → P k := by
    intro v k hk
    rw [Table.keys_put] at hk
    by_cases hmem : ToLower e.Event ∈ data.keys
    · simp only [hmem, if_true] at hk
      exact hdata k hk
    · simp only [hmem, if_false, List.mem_append, List.mem_singleton] at hk
      rcases hk with hk | hk
      · exact hdata k hk
      · exact hk ▸ hkey
  unfold processEvent at h
  cases hg : data.get (ToLower e.Event) with
  | none =>
    simp [hg] at h
    subst h
    exact hput _
  | some val =>
    match val with
    | [] => simp [hg] at h
    | [_] => simp [hg] at h
    | v0 :: v1 :: rest =>
      simp [hg] at h
      subst h
      exact hput _

theorem processEvents_keys (ToLower : String → String) (P : String → Prop)
    (hP : ∀ s, P (ToLower s)) (es : List Event) :
    ∀ data t : Table, (∀ k ∈ data.keys, P k) → processEvents ToLower data es = some t →
      ∀ k ∈ t.keys, P k := by
  induction es with
  | nil =>
    intro data t hdata h
    simp [processEvents] at h
    subst h
    exact hdata
  | cons e es ih =>
    intro data t hdata h
    simp only [processEvents] at h
    cases hp : processEvent ToLower data e with
    | none => simp [hp] at h
    | some data' =>
      simp only [hp] at h
      exact ih data' t (processEvent_keys P (hP _) hdata hp) h

/-- The frame of one successful `processEvent`: only the key of the event changes, and
that key is present afterwards. -/
theorem processEvent_frame {ToLower : String → String} {data data' : Table} {e : Event}
    (h : processEvent ToLower data e = some data') :
    (data'.get (ToLower e.Event)).isSome ∧
      (∀ k, k ≠ ToLower e.Event → data'.get k = data.get k) ∧
      data'.keys = if ToLower e.Event ∈ data.keys then data.keys
        else data.keys ++ [ToLower e.Event] := by
  have hput : ∀ v, ((data.put (ToLower e.Event) v).get (ToLower e.Event)).isSome ∧
      (∀ k, k ≠ ToLower e.Event → (data.put (ToLower e.Event) v).get k = data.get k) ∧
      (data.put (ToLower e.Event) v).keys = if ToLower e.Event ∈ data.keys then data.keys
        else data.keys ++ [ToLower e.Event] := by
    intro v
    refine ⟨by simp [Table.get_put_self], fun k hk => ?_, Table.keys_put _ _ _⟩
    exact Table.get_put_of_ne _ _ (fun h => hk h.symm)
  unfold processEvent at h
  cases hg : data.get (ToLower e.Event) with
  | none =>
    simp [hg] at h
    subst h
    exact hput _
  | some val =>
    match val with
    | [] => simp [hg] at h
    | [_] => simp [hg] at h
    | v0 :: v1 :: rest =>
      simp [hg] at h
      subst h
      exact hput _

/-! ## Many events under one fresh key -/

theorem processEvents_fresh (ToLower : String → String) (key : String) (es : List Event)
    (data : Table) (hfresh : data.get key = none)
    (hall : ∀ e ∈ es, ToLower e.Event = key ∧ IsInt e.Time) (hne : es ≠ []) :
    ∃ t, processEvents ToLower data es = some t ∧
      t.get key = some [wrapInt (es.map Event.Time).sum, wrapInt es.length] ∧
      ∀ k, k ≠ key → t.get k = data.get k := by
  obtain ⟨t, ht, hget⟩ := processEvents_get ToLower es data (by
    intro e he v hv
    rw [(hall e he).1, hfresh] at hv
    cases hv)
  refine ⟨t, ht, ?_, fun k hk => ?_⟩
  · have hself : eventsAt ToLower key es = es := by
      unfold eventsAt
      exact List.filter_eq_self.2 fun e he => by simp [(hall e he).1]
    rw [hget key, hself, hfresh]
    cases es with
    | nil => exact absurd rfl hne
    | cons e rest =>
      rw [List.map_cons, foldl_upsertVal_none _ _ (hall e (List.mem_cons_self _ _)).2]
      simp
  · have hnil : eventsAt ToLower k es = [] := by
      unfold eventsAt
      exact List.filter_eq_nil_iff.2 fun e he => by
        simp only [decide_eq_true_eq]
        rw [(hall e he).1]
        exact fun h => hk h.symm
    rw [hget k, hnil]
    rfl

theorem mem_jumps {K : Nat} {e : Event} (h : e ∈ jumps K) :
    e.Event = "jump" ∧ 1 ≤ e.Time ∧ e.Time ≤ K := by
  unfold jumps at h
  obtain ⟨i, hi, rfl⟩ := List.mem_map.1 h
  have := List.mem_range.1 hi
  refine ⟨rfl, ?_, ?_⟩
  · simp only
    omega
  · simp only
    omega

theorem length_jumps (K : Nat) : (jumps K).length = K := by
  unfold jumps
  rw [List.length_map, List.length_range]

theorem sum_jumps (K : Nat) : ((jumps K).map Event.Time).sum * 2 = (K : Int) * (K + 1) := by
  induction K with
  | zero => simp [jumps]
  | succ n ih =>
    have hstep : (jumps (n + 1)).map Event.Time
        = (jumps n).map Event.Time ++ [(n : Int) + 1] := by
      unfold jumps
      rw [List.range_succ, List.map_append, List.map_append]
      rfl
    rw [hstep, List.sum_append, add_mul, ih]
    simp only [List.sum_cons, List.sum_nil, add_zero]
    push_cast
    ring

theorem gauss_tdiv (K : Nat) (hK : 1 ≤ K) :
    Int.tdiv ((K : Int) * (K + 1) / 2) K = ((K : Int) + 1) / 2 := by
  have hN : K * (K + 1) / 2 / K = (K + 1) / 2 := by
    rw [Nat.div_div_eq_div_mul, Nat.mul_comm 2 K, Nat.mul_div_mul_left _ _ (by omega)]
  have hI : ((K * (K + 1) / 2 / K : Nat) : Int) = (((K + 1) / 2 : Nat) : Int) := by
    rw [hN]
  push_cast at hI
  rw [Int.tdiv_eq_ediv (Int.ediv_nonneg (by positivity) (by decide)) (by positivity)]
  exact hI

/-! ## Sequences of mixed calls -/

theorem CountsUpTo.mono {m m' : Int} {t : Table} (h : CountsUpTo m t) (hm : m ≤ m') :
    CountsUpTo m' t := by
  intro k v hv
  obtain ⟨s, c, rfl, h1, h2⟩ := h k v hv
  exact ⟨s, c, rfl, h1, h2.trans hm⟩

theorem processEvent_counts (ToLower : String → String) (data : Table) (e : Event)
    (m : Int) (hm0 : 0 ≤ m) (hm : m < maxInt) (hinv : CountsUpTo m data) :
    ∃ data', processEvent ToLower data e = some data' ∧ CountsUpTo (m + 1) data' := by
  obtain ⟨v, hv, _, hstep⟩ := processEvent_eq ToLower data e (by
    intro v hv
    obtain ⟨s, c, rfl, _⟩ := hinv _ v hv
    simp)
  refine ⟨_, hstep, ?_⟩
  intro k w hw
  rw [Table.get_put] at hw
  by_cases hk : ToLower e.Event = k
  · simp only [hk, if_true, Option.some.injEq] at hw
    subst hw
    cases hg : data.get (ToLower e.Event) with
    | none =>
      rw [hg] at hv
      simp only [upsertVal, Option.some.injEq] at hv
      unfold maxInt at hm
      exact ⟨e.Time, 1, hv.symm, le_refl 1, by omega⟩
    | some old =>
      obtain ⟨s, c, rfl, h1, h2⟩ := hinv _ old hg
      rw [hg] at hv
      simp only [upsertVal, Option.some.injEq] at hv
      have hc : wrapInt (c + 1) = c + 1 := by
        apply wrapInt_of_isInt
        unfold IsInt minInt maxInt
        unfold maxInt at hm
        omega
      rw [hc] at hv
      exact ⟨_, _, hv.symm, by omega, by omega⟩
  · simp only [hk, if_false] at hw
    exact (hinv.mono (by omega)) k w hw

/-- One more `processEvent` below the largest `int`: a new key gets the count `1`, the
count of the key of the event grows by one, every other count stays. -/
theorem processEvent_count_grows (ToLower : String → String) (data : Table) (e : Event)
    (m : Int) (hm : m < maxInt) (hinv : CountsUpTo m data) :
    ∃ data', processEvent ToLower data e = some data' ∧
      (data.get (ToLower e.Event) = none →
        data'.get (ToLower e.Event) = some [e.Time, 1]) ∧
      ∀ k s c, data.get k = some [s, c] →
        ∃ s', data'.get k = some [s', if k = ToLower e.Event then c + 1 else c] := by
  obtain ⟨v, hv, _, hstep⟩ := processEvent_eq ToLower data e (by
    intro v hv
    obtain ⟨s, c, rfl, _⟩ := hinv _ v hv
    simp)
  refine ⟨_, hstep, fun hnone => ?_, fun k s c hk => ?_⟩
  · rw [hnone] at hv
    simp only [upsertVal, Option.some.injEq] at hv
    rw [Table.get_put_self, hv]
  · by_cases hke : k = ToLower e.Event
    · subst hke
      obtain ⟨s0, c0, h0, h1, h2⟩ := hinv _ _ hk
      simp only [List.cons.injEq, and_true] at h0
      obtain ⟨rfl, rfl⟩ := h0
      rw [hk] at hv
      simp only [upsertVal, Option.some.injEq] at hv
      have hc : wrapInt (c + 1) = c + 1 := by
        apply wrapInt_of_isInt
        unfold IsInt minInt maxInt
        unfold maxInt at hm
        omega
      rw [hc] at hv
      exact ⟨wrapInt (s + e.Time), by rw [Table.get_put_self, ← hv]; simp⟩
    · rw [Table.get_put_of_ne _ _ (fun h => hke h.symm), hk]
      exact ⟨s, by simp [hke]⟩

theorem run_counts (Unmarshal : String → Except String Event) (ToLower : String → String)
    (calls : List Call) :
    ∀ (data : Table) (m : Int), 0 ≤ m → CountsUpTo m data → m + calls.length ≤ maxInt →
      ∃ t, run Unmarshal ToLower data calls = some t ∧ CountsUpTo (m + calls.length) t := by
  induction calls with
  | nil =>
    intro data m _ hinv _
    exact ⟨data, rfl, by simpa using hinv⟩
  | cons call calls ih =>
    intro data m hm0 hinv hlen
    simp only [List.length_cons, Nat.cast_add, Nat.cast_one] at hlen ⊢
    have hlt : m < maxInt := by omega
    have hnext : ∀ data', CountsUpTo (m + 1) data' →
        ∃ t, run Unmarshal ToLower data' calls = some t ∧
          CountsUpTo (m + ((calls.length : Int) + 1)) t := by
      intro data' hinv'
      obtain ⟨t, ht, hcount⟩ := ih data' (m + 1) (by omega) hinv' (by omega)
      exact ⟨t, ht, hcount.mono (by omega)⟩
    cases call with
    | process e =>
      obtain ⟨data', hp, hinv'⟩ := processEvent_counts ToLower data e m hm0 hlt hinv
      simp only [run, hp]
      exact hnext data' hinv'
    | publish input =>
      cases hd : Unmarshal input with
      | error msg =>
        simp only [run, PublishEvent, hd]
        exact hnext data (hinv.mono (by omega))
      | ok ev =>
        cases hv : validateEvent ev with
        | some verr =>
          simp only [run, PublishEvent, hd, hv]
          exact hnext data (hinv.mono (by omega))
        | none =>
          obtain ⟨data', hp, hinv'⟩ := processEvent_counts ToLower data ev m hm0 hlt hinv
          simp only [run, PublishEvent, hd, hv, hp]
          exact hnext data' hinv'

/-! ## The read path never changes the table -/

theorem goDiv_of_ne_zero (x : Int) {y : Int} (hy : y ≠ 0) : ∃ q, goDiv x y = some q := by
  unfold goDiv
  by_cases h : x = minInt ∧ y = -1
  · exact ⟨minInt, by simp [hy, h]⟩
  · exact ⟨Int.tdiv x y, by simp [hy, h]⟩

theorem avgStructs_of_nonzero (t : Table)
    (h : ∀ p ∈ t, ∃ s c rest, p.2 = s :: c :: rest ∧ c ≠ 0) :
    ∃ recs, avgStructs t = some recs := by
  induction t with
  | nil => exact ⟨[], rfl⟩
  | cons p rest ih =>
    obtain ⟨k, v⟩ := p
    obtain ⟨s, c, tl, hv, hc⟩ := h (k, v) (List.mem_cons_self _ _)
    simp only at hv
    subst hv
    obtain ⟨q, hq⟩ := goDiv_of_ne_zero s hc
    obtain ⟨recs, hrecs⟩ := ih fun p hp => h p (List.mem_cons_of_mem _ hp)
    exact ⟨⟨k, q⟩ :: recs, by simp [avgStructs, avgEvent, hq, hrecs]⟩

theorem avgStructs_cons (k : String) (v : List Int) (t : Table) (recs : AvgEvents)
    (h : avgStructs ((k, v) :: t) = some recs) :
    ∃ r rs, avgEvent k v = some r ∧ avgStructs t = some rs ∧ recs = r :: rs := by
  simp only [avgStructs] at h
  cases hr : avgEvent k v with
  | none => simp [hr] at h
  | some r =>
    cases hrs : avgStructs t with
    | none => simp [hr, hrs] at h
    | some rs =>
      simp only [hr, hrs, Option.some.injEq] at h
      exact ⟨r, rs, rfl, rfl, h.symm⟩

theorem avgStructs_perm {t t' : Table} (hperm : t.Perm t') :
    ∀ recs, avgStructs t = some recs → ∃ recs', avgStructs t' = some recs' ∧ recs.Perm recs' := by
  induction hperm with
  | nil =>
    intro recs h
    exact ⟨recs, h, List.Perm.refl _⟩
  | cons p _ ih =>
    intro recs h
    obtain ⟨k, v⟩ := p
    obtain ⟨r, rs, hr, hrs, rfl⟩ := avgStructs_cons k v _ recs h
    obtain ⟨rs', hrs', hp⟩ := ih rs hrs
    exact ⟨r :: rs', by simp [avgStructs, hr, hrs'], hp.cons r⟩
  | swap p q l =>
    intro recs h
    obtain ⟨k, v⟩ := p
    obtain ⟨k', v'⟩ := q
    obtain ⟨r', rs', hr', hrs', rfl⟩ := avgStructs_cons k' v' _ recs h
    obtain ⟨r, rs, hr, hrs, rfl⟩ := avgStructs_cons k v _ rs' hrs'
    exact ⟨r :: r' :: rs, by simp [avgStructs, hr, hr', hrs], List.Perm.swap r r' rs⟩
  | trans _ _ ih1 ih2 =>
    intro recs h
    obtain ⟨recs1, h1, p1⟩ := ih1 recs h
    obtain ⟨recs2, h2, p2⟩ := ih2 recs1 h1
    exact ⟨recs2, h2, p1.trans p2⟩

/-! ## Safety of the reachable tables -/

theorem wrapInt_natCast_ne_zero {n : Nat} (h0 : n ≠ 0) (h : n < 18446744073709551616) :
    wrapInt (n : Int) ≠ 0 := by
  unfold wrapInt
  omega

/-- The table after fewer than `2^64` events: the pair under every key, a non-zero
count, and a `GetStats` loop that runs to its end. -/
theorem processEvents_nil_safe (ToLower : String → String) (es : List Event)
    (hint : ∀ e ∈ es, IsInt e.Time) (hlen : es.length < 18446744073709551616) :
    ∃ t, processEvents ToLower [] es = some t ∧ t.keys.Nodup ∧
      (∀ k, t.get k
        = if countAt ToLower k es = 0 then none
          else some [wrapInt (totalAt ToLower k es), wrapInt (countAt ToLower k es)]) ∧
      (∀ k v, t.get k = some v → ∃ s c, v = [s, c] ∧ c ≠ 0) ∧
      ∃ recs, avgStructs t = some recs := by
  obtain ⟨t, ht, hn, hget⟩ := processEvents_nil ToLower es hint
  have hshape : ∀ k v, t.get k = some v → ∃ s c, v = [s, c] ∧ c ≠ 0 := by
    intro k v hv
    rw [hget k] at hv
    by_cases h0 : countAt ToLower k es = 0
    · simp [h0] at hv
    · simp only [h0, if_false, Option.some.injEq] at hv
      have hle := countAt_le_length ToLower k es
      exact ⟨_, _, hv.symm, wrapInt_natCast_ne_zero h0 (by omega)⟩
  refine ⟨t, ht, hn, hget, hshape, avgStructs_of_nonzero t ?_⟩
  rintro ⟨k, v⟩ hmem
  obtain ⟨s, c, hv, hc⟩ := hshape k v (Table.get_of_mem hn hmem)
  exact ⟨s, c, [], hv, hc⟩

/-! ## Sequences of `PublishEvent` calls: the events that reach the table -/

theorem publishEvents_accepted (Unmarshal : String → Except String Event)
    (ToLower : String → String) (inputs : List String) :
    ∀ data : Table, publishEvents Unmarshal ToLower data inputs
      = (processEvents ToLower data (accepted Unmarshal inputs)).map fun t =>
          (inputs.map (errorOf Unmarshal), t) := by
  induction inputs with
  | nil => intro data; rfl
  | cons input inputs ih =>
    intro data
    cases hd : Unmarshal input with
    | error err =>
      simp only [publishEvents, PublishEvent, accepted, errorOf, hd, List.map_cons, ih data]
      cases processEvents ToLower data (accepted Unmarshal inputs) <;> rfl
    | ok ev =>
      cases hv : validateEvent ev with
      | some verr =>
        simp only [publishEvents, PublishEvent, accepted, errorOf, hd, hv, List.map_cons,
          ih data]
        cases processEvents ToLower data (accepted Unmarshal inputs) <;> rfl
      | none =>
        simp only [publishEvents, PublishEvent, accepted, errorOf, hd, hv, List.map_cons,
          processEvents]
        cases hp : processEvent ToLower data ev with
        | none => rfl
        | some data' =>
          simp only [ih data']
          cases processEvents ToLower data' (accepted Unmarshal inputs) <;> rfl

theorem accepted_valid (Unmarshal : String → Except String Event) (inputs : List String) :
    ∀ e ∈ accepted Unmarshal inputs, e.Event ≠ "" ∧ 0 ≤ e.Time := by
  induction inputs with
  | nil => intro e he; cases he
  | cons input inputs ih =>
    intro e he
    simp only [accepted] at he
    cases hd : Unmarshal input with
    | error err =>
      simp only [hd] at he
      exact ih e he
    | ok ev =>
      cases hv : validateEvent ev with
      | some verr =>
        simp only [hd, hv] at he
        exact ih e he
      | none =>
        simp only [hd, hv] at he
        rcases List.mem_cons.1 he with h | h
        · rw [h]
          exact (validateEvent_eq_none_iff ev).1 hv
        · exact ih e h

/-! ## Smallest and largest duration -/

theorem foldl_min_le (es : List Event) :
    ∀ a : Int, es.foldl (fun m x => min m x.Time) a ≤ a ∧
      ∀ x ∈ es, es.foldl (fun m x => min m x.Time) a ≤ x.Time := by
  induction es with
  | nil => intro a; exact ⟨le_refl a, fun x hx => by cases hx⟩
  | cons e es ih =>
    intro a
    obtain ⟨h1, h2⟩ := ih (min a e.Time)
    refine ⟨h1.trans (min_le_left _ _), fun x hx => ?_⟩
    rcases List.mem_cons.1 hx with h | h
    · rw [h]
      exact h1.trans (min_le_right _ _)
    · exact h2 x h

theorem le_foldl_max (es : List Event) :
    ∀ a : Int, a ≤ es.foldl (fun m x => max m x.Time) a ∧
      ∀ x ∈ es, x.Time ≤ es.foldl (fun m x => max m x.Time) a := by
  induction es with
  | nil => intro a; exact ⟨le_refl a, fun x hx => by cases hx⟩
  | cons e es ih =>
    intro a
    obtain ⟨h1, h2⟩ := ih (max a e.Time)
    refine ⟨(le_max_left _ _).trans h1, fun x hx => ?_⟩
    rcases List.mem_cons.1 hx with h | h
    · rw [h]
      exact (le_max_right _ _).trans h1
    · exact h2 x h

theorem minTime_le (es : List Event) : ∀ x ∈ es, minTime es ≤ x.Time := by
  cases es with
  | nil => intro x hx; cases hx
  | cons e es =>
    intro x hx
    obtain ⟨h1, h2⟩ := foldl_min_le es e.Time
    rcases List.mem_cons.1 hx with h | h
    · rw [h]
      exact h1
    · exact h2 x h

theorem le_maxTime (es : List Event) : ∀ x ∈ es, x.Time ≤ maxTime es := by
  cases es with
  | nil => intro x hx; cases hx
  | cons e es =>
    intro x hx
    obtain ⟨h1, h2⟩ := le_foldl_max es e.Time
    rcases List.mem_cons.1 hx with h | h
    · rw [h]
      exact h1
    · exact h2 x h

theorem length_mul_minTime_le (es : List Event) :
    (es.length : Int) * minTime es ≤ (es.map Event.Time).sum := by
  have h := List.card_nsmul_le_sum (es.map Event.Time) (minTime es) (by
    intro x hx
    obtain ⟨e, he, rfl⟩ := List.mem_map.1 hx
    exact minTime_le es e he)
  rwa [List.length_map, nsmul_eq_mul] at h

theorem sum_le_length_mul_maxTime (es : List Event) :
    (es.map Event.Time).sum ≤ (es.length : Int) * maxTime es := by
  have h := List.sum_le_card_nsmul (es.map Event.Time) (maxTime es) (by
    intro x hx
    obtain ⟨e, he, rfl⟩ := List.mem_map.1 hx
    exact le_maxTime es e he)
  rwa [List.length_map, nsmul_eq_mul] at h

/-! ## Decoding with the tags of `Event` -/

theorem tagField_eq_none_iff (key : String) :
    tagField key = none ↔ ¬ (asciiToLower key = "event" ∨ asciiToLower key = "time") := by
  unfold tagField
  by_cases h1 : asciiToLower key = "event"
  · simp [h1]
  · by_cases h2 : asciiToLower key = "time"
    · simp [h1, h2]
    · simp [h1, h2]

theorem decodeMember_of_not_countsFor {m : String × JsonValue} (h : countsFor m = false)
    (ev : Event) : decodeMember tagField ev m = .ok ev := by
  obtain ⟨k, v⟩ := m
  simp only [countsFor, decide_eq_false_iff_not, not_and, not_not] at h
  cases hf : tagField k with
  | none => simp [decodeMember, hf]
  | some f =>
    have hkey : asciiToLower k = "event" ∨ asciiToLower k = "time" := by
      by_contra hc
      rw [(tagField_eq_none_iff k).2 hc] at hf
      cases hf
    have hv : v = JsonValue.null := h hkey
    subst hv
    cases f <;> simp [decodeMember, hf]

theorem decodeMembers_countsFor (ms : List (String × JsonValue)) :
    ∀ ev, decodeMembers tagField ev (ms.filter countsFor) = decodeMembers tagField ev ms := by
  induction ms with
  | nil => intro ev; rfl
  | cons m ms ih =>
    intro ev
    cases hc : countsFor m with
    | false =>
      simp only [List.filter_cons, hc, Bool.false_eq_true, if_false, decodeMembers,
        decodeMember_of_not_countsFor hc]
      exact ih ev
    | true =>
      simp only [List.filter_cons, hc, if_true, decodeMembers]
      cases decodeMember tagField ev m with
      | error err => rfl
      | ok ev' => exact ih ev'

theorem decodeMember_of_fits {m : String × JsonValue} (h : fitsField m = true) (ev : Event) :
    decodeMember tagField ev m
      = .ok ⟨(eventOf m).getD ev.Event, (timeOf m).getD ev.Time⟩ := by
  obtain ⟨k, v⟩ := m
  cases hf : tagField k with
  | none => simp [decodeMember, eventOf, timeOf, hf]
  | some f =>
    cases f <;> cases v <;>
      simp_all [fitsField, decodeMember, eventOf, timeOf]

theorem decodeMember_of_not_fits {m : String × JsonValue} (h : fitsField m = false)
    (ev : Event) : ∃ err, decodeMember tagField ev m = .error err := by
  obtain ⟨k, v⟩ := m
  cases hf : tagField k with
  | none => simp [fitsField, hf] at h
  | some f =>
    cases f <;> cases v <;> simp_all [fitsField, decodeMember]
    rename_i n
    have hn : ¬ (minInt ≤ n ∧ n ≤ maxInt) := fun hc => absurd hc.2 (not_le.2 (h hc.1))
    simp [hn]

/-- Decoding of members that all fit: the last string for `event` and the last integer
for `time`, the earlier content where there is none. -/
theorem decodeMembers_of_fits (ms : List (String × JsonValue)) :
    ∀ ev, (∀ m ∈ ms, fitsField m = true) →
      decodeMembers tagField ev ms
        = .ok ⟨(lastEvent ms).getD ev.Event, (lastTime ms).getD ev.Time⟩ := by
  induction ms with
  | nil => intro ev _; rfl
  | cons m ms ih =>
    intro ev h
    simp only [decodeMembers, decodeMember_of_fits (h m (List.mem_cons_self _ _))]
    rw [ih _ fun m' hm' => h m' (List.mem_cons_of_mem _ hm')]
    simp only [lastEvent, lastTime]
    cases lastEvent ms <;> cases lastTime ms <;> rfl

/-- Decoding fails as soon as one member does not fit. -/
theorem decodeMembers_of_not_fits (ms : List (String × JsonValue)) :
    ∀ ev, (∃ m ∈ ms, fitsField m = false) → ∃ err, decodeMembers tagField ev ms = .error err := by
  induction ms with
  | nil =>
    intro ev h
    obtain ⟨m, hm, _⟩ := h
    cases hm
  | cons m ms ih =>
    intro ev h
    cases hfit : fitsField m with
    | false =>
      obtain ⟨err, herr⟩ := decodeMember_of_not_fits hfit ev
      exact ⟨err, by simp [decodeMembers, herr]⟩
    | true =>
      obtain ⟨m', hm', hfalse⟩ := h
      rcases List.mem_cons.1 hm' with heq | hin
      · rw [heq, hfit] at hfalse
        cases hfalse
      · simp only [decodeMembers, decodeMember_of_fits hfit]
        exact ih _ ⟨m', hin, hfalse⟩

/-! ## Claims -/

/-- C1, amended: for every finite list of events (durations being Go ints) applied with
`processEvent` to the empty table, every permutation of the list gives the same table;
a key is present iff some event has it as lower-cased name, and then the stored sum and
count are the sum of the durations and the number of those events, each reduced to the
64-bit `int` by two's-complement wrap-around, hence the exact values whenever these lie
within the range of `int`. -/
theorem C1_processEvents_order_independent (ToLower : String → String)
    (es es' : List Event) (hes : ∀ e ∈ es, IsInt e.Time) (hperm : es.Perm es') :
    ∃ t t', processEvents ToLower [] es = some t ∧ processEvents ToLower [] es' = some t' ∧
      (∀ k, t'.get k = t.get k) ∧
      (∀ k, (t.get k).isSome ↔ ∃ e ∈ es, ToLower e.Event = k) ∧
      (∀ k, (∃ e ∈ es, ToLower e.Event = k) →
        t.get k = some [wrapInt (totalAt ToLower k es), wrapInt (countAt ToLower k es)]) ∧
      (∀ k, (∃ e ∈ es, ToLower e.Event = k) → IsInt (totalAt ToLower k es) →
        IsInt (countAt ToLower k es) →
        t.get k = some [totalAt ToLower k es, (countAt ToLower k es : Int)]) := by
  have hes' : ∀ e ∈ es', IsInt e.Time := fun e he => hes e (hperm.mem_iff.2 he)
  obtain ⟨t, ht, _, hget⟩ := processEvents_nil ToLower es hes
  obtain ⟨t', ht', _, hget'⟩ := processEvents_nil ToLower es' hes'
  have hval : ∀ k, (∃ e ∈ es, ToLower e.Event = k) →
      t.get k = some [wrapInt (totalAt ToLower k es), wrapInt (countAt ToLower k es)] := by
    intro k hk
    rw [hget k, if_neg ((countAt_pos_iff ToLower k es).2 hk)]
  refine ⟨t, t', ht, ht', fun k => ?_, fun k => ?_, hval, fun k hk hs hc => ?_⟩
  · rw [hget k, hget' k, totalAt_perm ToLower k hperm, countAt_perm ToLower k hperm]
  · rw [hget k, ← countAt_pos_iff]
    by_cases h0 : countAt ToLower k es = 0 <;> simp [h0]
  · rw [hval k hk, wrapInt_of_isInt hs, wrapInt_of_isInt hc]

/-- Witness of C1: the four events of `TestPublishEventMultipleEntry` against one of
their permutations. -/
theorem C1_processEvents_order_independent_witness :
    ∃ t t', processEvents asciiToLower []
        [⟨"jump", 100⟩, ⟨"run", 75⟩, ⟨"jump", 200⟩, ⟨"jump", 300⟩] = some t ∧
      processEvents asciiToLower []
        [⟨"run", 75⟩, ⟨"jump", 100⟩, ⟨"jump", 200⟩, ⟨"jump", 300⟩] = some t' ∧
      (∀ k, t'.get k = t.get k) :=
  have h := C1_processEvents_order_independent asciiToLower
    [⟨"jump", 100⟩, ⟨"run", 75⟩, ⟨"jump", 200⟩, ⟨"jump", 300⟩]
    [⟨"run", 75⟩, ⟨"jump", 100⟩, ⟨"jump", 200⟩, ⟨"jump", 300⟩]
    (by
      intro e he
      simp only [List.mem_cons, List.mem_singleton, List.not_mem_nil, or_false] at he
      rcases he with h | h | h | h <;> subst h <;> simp [IsInt, minInt, maxInt])
    (List.Perm.swap _ _ _)
  let ⟨t, t', h1, h2, h3, _⟩ := h
  ⟨t, t', h1, h2, h3⟩

/-- Counterexample to C1 as stated: two valid events under one key whose durations add
up to `2^63`; the stored sum is `-2^63`, not the sum of the durations. -/
theorem C1_counterexample :
    processEvents asciiToLower [] [⟨"a", 9223372036854775807⟩, ⟨"a", 1⟩]
        = some [("a", [-9223372036854775808, 2])] ∧
      totalAt asciiToLower "a" [⟨"a", 9223372036854775807⟩, ⟨"a", 1⟩]
        = 9223372036854775808 := by
  constructor <;> decide

/-- C2, amended: for every table whose entry at the key, if present, is a pair
`(sum, count)`, and every input that decodes to an event `(name, d)` with `name`
non-empty and `d ≥ 0`, `PublishEvent` returns `nil` and the table after the call is the
table before with exactly one upsert applied at key `ToLower(name)`: a present entry now
holds `(sum + d, count + 1)` reduced to the 64-bit `int` by wrap-around (the exact values
when these are within the range of `int`), an absent one now holds `(d, 1)`; every other
key is as before. -/
theorem C2_PublishEvent_upsert (Unmarshal : String → Except String Event)
    (ToLower : String → String) (data : Table) (input name : String) (d : Int)
    (hdec : Unmarshal input = .ok ⟨name, d⟩) (hname : name ≠ "") (hd : 0 ≤ d)
    (hshape : ∀ v, data.get (ToLower name) = some v → ∃ s c, v = [s, c]) :
    ∃ data', PublishEvent Unmarshal ToLower data input = some (none, data') ∧
      (∀ s c, data.get (ToLower name) = some [s, c] →
        data'.get (ToLower name) = some [wrapInt (s + d), wrapInt (c + 1)]) ∧
      (∀ s c, data.get (ToLower name) = some [s, c] → IsInt (s + d) → IsInt (c + 1) →
        data'.get (ToLower name) = some [s + d, c + 1]) ∧
      (data.get (ToLower name) = none → data'.get (ToLower name) = some [d, 1]) ∧
      (∀ k, k ≠ ToLower name → data'.get k = data.get k) ∧
      data'.keys = if ToLower name ∈ data.keys then data.keys
        else data.keys ++ [ToLower name] := by
  have hlen : ∀ v, data.get (ToLower name) = some v → 2 ≤ v.length := by
    intro v hv
    obtain ⟨s, c, rfl⟩ := hshape v hv
    simp
  obtain ⟨v, hv, _, hstep⟩ := processEvent_eq ToLower data ⟨name, d⟩ hlen
  simp only at hv hstep
  have hpub := PublishEvent_of_valid Unmarshal ToLower data input ⟨name, d⟩ hdec hname hd
  rw [hstep] at hpub
  have hwrap : ∀ s c, data.get (ToLower name) = some [s, c] →
      (data.put (ToLower name) v).get (ToLower name)
        = some [wrapInt (s + d), wrapInt (c + 1)] := by
    intro s c hsc
    rw [hsc] at hv
    simp only [upsertVal, Option.some.injEq] at hv
    rw [Table.get_put_self, hv]
  refine ⟨data.put (ToLower name) v, hpub, hwrap, ?_, ?_, ?_, Table.keys_put _ _ _⟩
  · intro s c hsc h1 h2
    rw [hwrap s c hsc, wrapInt_of_isInt h1, wrapInt_of_isInt h2]
  · intro hnone
    rw [hnone] at hv
    simp only [upsertVal, Option.some.injEq] at hv
    rw [Table.get_put_self, hv]
  · intro k hk
    exact Table.get_put_of_ne _ _ (fun h => hk h.symm)

/-- Witness of C2: `jump 200` published to the table that holds `jump ↦ (100, 1)` and
`run ↦ (75, 1)`. -/
theorem C2_PublishEvent_upsert_witness :
    ∃ data', PublishEvent testUnmarshal asciiToLower
        [("jump", [100, 1]), ("run", [75, 1])]
        "\x7b\"event\":\"jump\", \"time\":200\x7d" = some (none, data') ∧
      data'.get "jump" = some [300, 2] ∧ data'.get "run" = some [75, 1] :=
  have h := C2_PublishEvent_upsert testUnmarshal asciiToLower
    [("jump", [100, 1]), ("run", [75, 1])]
    "\x7b\"event\":\"jump\", \"time\":200\x7d" "jump" 200
    (by rfl) (by decide) (by decide)
    (fun v hv => ⟨100, 1, by
      have : v = [100, 1] := by
        have hg : Table.get [("jump", [100, 1]), ("run", [75, 1])] (asciiToLower "jump")
            = some [100, 1] := by decide
        rw [hg] at hv
        exact (Option.some.inj hv).symm
      exact this⟩)
  let ⟨data', h1, _, h3, _, h5, _⟩ := h
  ⟨data', h1,
    h3 100 1 (by decide) (by simp [IsInt, minInt, maxInt]) (by simp [IsInt, minInt, maxInt]),
    (h5 "run" (by decide)).trans (by decide)⟩

/-- Counterexample to C2 as stated: the entry `(2^63 - 1, 1)` and the valid event
`jump 1`; the entry afterwards holds the sum `-2^63`, not `2^63 = sum + d`. -/
theorem C2_counterexample :
    PublishEvent testUnmarshal asciiToLower [("jump", [9223372036854775807, 1])]
        "\x7b\"event\":\"jump\", \"time\":1\x7d"
      = some (none, [("jump", [-9223372036854775808, 2])]) ∧
    (9223372036854775807 : Int) + 1 ≠ -9223372036854775808 := by
  constructor <;> decide

/-- C3: for every table (a map: no key twice) whose entries are pairs `(sum, count)`
with `count ≥ 1`, `GetStats` returns the marshalled list of the records it collects and
leaves the table as it is; the records are exactly one per key and no others, and the
record of a key with entry `(sum, count)` has `avg = sum / count` truncated towards
zero: `|avg| * count ≤ |sum| < (|avg| + 1) * count` with the sign of `sum`. -/
theorem C3_GetStats_records (Marshal : AvgEvents → String) (t : Table)
    (hmap : t.keys.Nodup)
    (hpairs : ∀ k v, t.get k = some v → ∃ s c, v = [s, c] ∧ 1 ≤ c) :
    ∃ recs, GetStats Marshal t = some (Marshal recs, t) ∧ avgStructs t = some recs ∧
      recs.map AvgEvent.Event = t.keys ∧ (recs.map AvgEvent.Event).Nodup ∧
      (∀ r, r ∈ recs ↔ ∃ s c, t.get r.Event = some [s, c] ∧ r.Avg = Int.tdiv s c) ∧
      (∀ r ∈ recs, ∀ s c, t.get r.Event = some [s, c] →
        |r.Avg| * c ≤ |s| ∧ |s| < (|r.Avg| + 1) * c ∧
          (0 ≤ s → 0 ≤ r.Avg) ∧ (s ≤ 0 → r.Avg ≤ 0)) := by
  obtain ⟨recs, hrecs, hkeys, hchar⟩ := avgStructs_of_map t hmap hpairs
  refine ⟨recs, by simp [GetStats, hrecs], hrecs, hkeys, hkeys ▸ hmap, hchar, ?_⟩
  intro r hr s c hget
  obtain ⟨s', c', hget', havg⟩ := (hchar r).1 hr
  rw [hget] at hget'
  simp only [Option.some.injEq, List.cons.injEq, and_true] at hget'
  obtain ⟨rfl, rfl⟩ := hget'
  obtain ⟨_, _, hv, hc⟩ := hpairs r.Event [s, c] hget
  simp only [List.cons.injEq, and_true] at hv
  obtain ⟨_, rfl⟩ := hv
  rw [havg]
  exact tdiv_truncates s c hc

/-- Witness of C3: `sum = 401, count = 2` gives `200` and `sum = 3, count = 2` gives
`1`, in the text that `GetStats` returns. -/
theorem C3_GetStats_records_witness :
    ∃ recs, GetStats (marshalAvgEvents plainQuote) [("run", [401, 2]), ("jump", [3, 2])]
        = some (marshalAvgEvents plainQuote recs, [("run", [401, 2]), ("jump", [3, 2])]) ∧
      recs.map AvgEvent.Event = ["run", "jump"] ∧
      (∀ r, r ∈ recs ↔ ∃ s c,
        Table.get [("run", [401, 2]), ("jump", [3, 2])] r.Event = some [s, c] ∧
          r.Avg = Int.tdiv s c) ∧
      GetStats (marshalAvgEvents plainQuote) [("run", [401, 2]), ("jump", [3, 2])]
        = some ("[\x7b\"event\":\"run\",\"avg\":200\x7d,\x7b\"event\":\"jump\",\"avg\":1\x7d]",
          [("run", [401, 2]), ("jump", [3, 2])]) :=
  have h := C3_GetStats_records (marshalAvgEvents plainQuote)
    [("run", [401, 2]), ("jump", [3, 2])] (by decide)
    (by
      intro k v hv
      simp only [Table.get] at hv
      split at hv
      · exact ⟨401, 2, (Option.some.inj hv).symm, by decide⟩
      · split at hv
        · exact ⟨3, 2, (Option.some.inj hv).symm, by decide⟩
        · cases hv)
  let ⟨recs, h0, _, h2, _, h4, _⟩ := h
  ⟨recs, h0, h2, h4, by decide⟩

/-- C4: end to end, for every list of valid events (non-empty names, durations `≥ 0`,
sums within int range) published with `PublishEvent` to the empty table, every call
returns `nil` and `GetStats` afterwards returns the marshalled records, exactly one for
every distinct lower-cased name `k` and no other, with the value `a` such that
`a * n ≤ S < (a + 1) * n`, where `S` is the total duration and `n` the number of
published events whose lower-cased name is `k`. The list is one that a run can publish:
its length is within the range of the `int` that counts the events. -/
theorem C4_publish_then_stats (Unmarshal : String → Except String Event)
    (ToLower : String → String) (Marshal : AvgEvents → String) (inputs : List String)
    (es : List Event)
    (hdec : inputs.map Unmarshal = es.map Except.ok)
    (hvalid : ∀ e ∈ es, e.Event ≠ "" ∧ 0 ≤ e.Time)
    (hsum : ∀ k, totalAt ToLower k es ≤ maxInt)
    (hlen : (es.length : Int) ≤ maxInt) :
    ∃ t recs, publishEvents Unmarshal ToLower [] inputs
        = some (List.replicate inputs.length none, t) ∧
      GetStats Marshal t = some (Marshal recs, t) ∧
      avgStructs t = some recs ∧ (recs.map AvgEvent.Event).Nodup ∧
      (∀ r ∈ recs, ∃ e ∈ es, ToLower e.Event = r.Event) ∧
      (∀ k, (∃ e ∈ es, ToLower e.Event = k) →
        ∃ a, (⟨k, a⟩ : AvgEvent) ∈ recs ∧ (∀ r ∈ recs, r.Event = k → r.Avg = a) ∧
          a * (countAt ToLower k es : Int) ≤ totalAt ToLower k es ∧
          totalAt ToLower k es < (a + 1) * (countAt ToLower k es : Int)) := by
  have hnn : ∀ e ∈ es, 0 ≤ e.Time := fun e he => (hvalid e he).2
  obtain ⟨t, ht, hn, hget⟩ := processEvents_nil_exact ToLower es hnn hsum hlen
  have hcpos : ∀ k, (∃ e ∈ es, ToLower e.Event = k) → (1 : Int) ≤ countAt ToLower k es := by
    intro k hk
    have := (countAt_pos_iff ToLower k es).2 hk
    omega
  have hpairs : ∀ k v, t.get k = some v → ∃ s c, v = [s, c] ∧ 1 ≤ c := by
    intro k v hv
    obtain ⟨hk, rfl⟩ := (hget k v).1 hv
    exact ⟨_, _, rfl, hcpos k hk⟩
  obtain ⟨recs, hrecs, hkeys, hchar⟩ := avgStructs_of_map t hn hpairs
  refine ⟨t, recs, ?_, by simp [GetStats, hrecs], hrecs, hkeys ▸ hn, ?_, ?_⟩
  · rw [publishEvents_of_valid Unmarshal ToLower inputs es [] hdec hvalid, ht]
    rfl
  · intro r hr
    obtain ⟨s, c, hsc, _⟩ := (hchar r).1 hr
    exact ((hget _ _).1 hsc).1
  · intro k hk
    have hk' : t.get k
        = some [totalAt ToLower k es, (countAt ToLower k es : Int)] :=
      (hget k _).2 ⟨hk, rfl⟩
    have hS := totalAt_nonneg ToLower k es hnn
    obtain ⟨h1, h2, h3, _⟩ := tdiv_truncates (totalAt ToLower k es) _ (hcpos k hk)
    have ha := h3 hS
    rw [abs_of_nonneg ha, abs_of_nonneg hS] at h1 h2
    refine ⟨Int.tdiv (totalAt ToLower k es) (countAt ToLower k es), ?_, ?_, h1, h2⟩
    · exact (hchar ⟨k, _⟩).2 ⟨_, _, hk', rfl⟩
    · intro r hr hrk
      obtain ⟨s, c, hsc, havg⟩ := (hchar r).1 hr
      rw [hrk, hk'] at hsc
      simp only [Option.some.injEq, List.cons.injEq, and_true] at hsc
      rw [havg, ← hsc.1, ← hsc.2]

/-- Witness of C4: the four inputs of `TestPublishEventMultipleEntry` give `jump 200`
and `run 75`. -/
theorem C4_publish_then_stats_witness :
    ∃ t recs, publishEvents testUnmarshal asciiToLower []
        ["\x7b\"event\":\"jump\", \"time\":100\x7d",
          "\x7b\"event\":\"run\", \"time\":75\x7d",
          "\x7b\"event\":\"jump\", \"time\":200\x7d",
          "\x7b\"event\":\"jump\", \"time\":300\x7d"]
        = some ([none, none, none, none], t) ∧
      GetStats (marshalAvgEvents plainQuote) t
        = some (marshalAvgEvents plainQuote recs, t) ∧
      (⟨"jump", 200⟩ : AvgEvent) ∈ recs ∧ (⟨"run", 75⟩ : AvgEvent) ∈ recs :=
  have hnn : ∀ e ∈ ([⟨"jump", 100⟩, ⟨"run", 75⟩, ⟨"jump", 200⟩, ⟨"jump", 300⟩] : List Event),
      e.Event ≠ "" ∧ 0 ≤ e.Time := by decide
  have h := C4_publish_then_stats testUnmarshal asciiToLower (marshalAvgEvents plainQuote)
    ["\x7b\"event\":\"jump\", \"time\":100\x7d",
      "\x7b\"event\":\"run\", \"time\":75\x7d",
      "\x7b\"event\":\"jump\", \"time\":200\x7d",
      "\x7b\"event\":\"jump\", \"time\":300\x7d"]
    [⟨"jump", 100⟩, ⟨"run", 75⟩, ⟨"jump", 200⟩, ⟨"jump", 300⟩]
    (by rfl) hnn
    (fun k => (totalAt_le_sum asciiToLower k _ fun e he => (hnn e he).2).trans
      (by simp [maxInt]))
    (by simp [maxInt])
  let ⟨t, recs, h1, h2, _, _, _, h5⟩ := h
  have hj := h5 "jump" ⟨⟨"jump", 100⟩, by simp, by decide⟩
  have hr := h5 "run" ⟨⟨"run", 75⟩, by simp, by decide⟩
  ⟨t, recs, h1, h2,
    (by
      obtain ⟨a, ha, _, h3, h4⟩ := hj
      have hc : countAt asciiToLower "jump"
          [⟨"jump", 100⟩, ⟨"run", 75⟩, ⟨"jump", 200⟩, ⟨"jump", 300⟩] = 3 := by decide
      have ht : totalAt asciiToLower "jump"
          [⟨"jump", 100⟩, ⟨"run", 75⟩, ⟨"jump", 200⟩, ⟨"jump", 300⟩] = 600 := by decide
      rw [hc, ht] at h3 h4
      have : a = 200 := by omega
      rw [← this]
      exact ha),
    (by
      obtain ⟨a, ha, _, h3, h4⟩ := hr
      have hc : countAt asciiToLower "run"
          [⟨"jump", 100⟩, ⟨"run", 75⟩, ⟨"jump", 200⟩, ⟨"jump", 300⟩] = 1 := by decide
      have ht : totalAt asciiToLower "run"
          [⟨"jump", 100⟩, ⟨"run", 75⟩, ⟨"jump", 200⟩, ⟨"jump", 300⟩] = 75 := by decide
      rw [hc, ht] at h3 h4
      have : a = 75 := by omega
      rw [← this]
      exact ha)⟩

/-- C5: for every valid event (name non-empty, `d ≥ 0`) published with `PublishEvent` to
the empty table, the call returns `nil` and `GetStats` afterwards returns the marshalled
list of exactly one record, with `event = ToLower(name)` and `avg = d`, and leaves the
table as it is. -/
theorem C5_PublishEvent_single (Unmarshal : String → Except String Event)
    (ToLower : String → String) (Marshal : AvgEvents → String) (input name : String)
    (d : Int) (hdec : Unmarshal input = .ok ⟨name, d⟩) (hname : name ≠ "") (hd : 0 ≤ d) :
    ∃ data', PublishEvent Unmarshal ToLower [] input = some (none, data') ∧
      GetStats Marshal data' = some (Marshal [⟨ToLower name, d⟩], data') ∧
      avgStructs data' = some [⟨ToLower name, d⟩] := by
  have hpub := PublishEvent_of_valid Unmarshal ToLower [] input ⟨name, d⟩ hdec hname hd
  refine ⟨[(ToLower name, [d, 1])], ?_, ?_, ?_⟩
  · rw [hpub]
    simp [processEvent, Table.get, Table.put]
  · simp [GetStats, avgStructs, avgEvent_pair _ d 1 (le_refl 1)]
  · simp [avgStructs, avgEvent_pair _ d 1 (le_refl 1)]

/-- Witness of C5: the input of `TestPublishEventSingleEntry` and the text the test
expects from `GetStats`. -/
theorem C5_PublishEvent_single_witness :
    ∃ data', PublishEvent testUnmarshal asciiToLower []
        "\x7b\"event\":\"jump\", \"time\":100\x7d" = some (none, data') ∧
      GetStats (marshalAvgEvents plainQuote) data'
        = some ("[\x7b\"event\":\"jump\",\"avg\":100\x7d]", data') :=
  have h := C5_PublishEvent_single testUnmarshal asciiToLower (marshalAvgEvents plainQuote)
    "\x7b\"event\":\"jump\", \"time\":100\x7d" "jump" 100
    (by rfl) (by decide) (by decide)
  have htext : marshalAvgEvents plainQuote [⟨asciiToLower "jump", 100⟩]
      = "[\x7b\"event\":\"jump\",\"avg\":100\x7d]" := by decide
  let ⟨data', h1, h2, _⟩ := h
  ⟨data', h1, htext ▸ h2⟩

/-- C6: keys are name-normalized before lookup and insert: for every table and any two
names with the same lower-casing, `processEvent` with the one and with the other update
the same single entry (the calls agree, every other key is left as it was), and, with
`ToLower` idempotent, every key of every table reachable from the empty table through
`processEvent` is a fixed point of `ToLower`. -/
theorem C6_keys_normalized (ToLower : String → String)
    (hidem : ∀ s, ToLower (ToLower s) = ToLower s) :
    (∀ (data : Table) (n1 n2 : String) (d : Int), ToLower n1 = ToLower n2 →
      processEvent ToLower data ⟨n1, d⟩ = processEvent ToLower data ⟨n2, d⟩) ∧
    (∀ (data data1 data2 : Table) (n1 n2 : String) (d1 d2 : Int), ToLower n1 = ToLower n2 →
      processEvent ToLower data ⟨n1, d1⟩ = some data1 →
      processEvent ToLower data ⟨n2, d2⟩ = some data2 →
      data1.keys = data2.keys ∧
        (data1.get (ToLower n1)).isSome ∧ (data2.get (ToLower n1)).isSome ∧
        ∀ k, k ≠ ToLower n1 → data1.get k = data.get k ∧ data2.get k = data.get k) ∧
    (∀ (es : List Event) (t : Table), processEvents ToLower [] es = some t →
      ∀ k ∈ t.keys, ToLower k = k) := by
  refine ⟨?_, ?_, ?_⟩
  · intro data n1 n2 d h
    simp only [processEvent, h]
  · intro data data1 data2 n1 n2 d1 d2 h h1 h2
    obtain ⟨a1, b1, c1⟩ := processEvent_frame h1
    obtain ⟨a2, b2, c2⟩ := processEvent_frame h2
    simp only at a1 b1 c1 a2 b2 c2
    rw [← h] at a2 b2 c2
    exact ⟨c1.trans c2.symm, a1, a2, fun k hk => ⟨b1 k hk, b2 k hk⟩⟩
  · intro es t h
    exact processEvents_keys ToLower (fun k => ToLower k = k) hidem es [] t
      (by simp [Table.keys]) h

/-- Witness of C6: `Jump 50` then `jump 150` give the one key `jump` with average
`100`. -/
theorem C6_keys_normalized_witness :
    processEvents asciiToLower [] [⟨"Jump", 50⟩, ⟨"jump", 150⟩] = some [("jump", [200, 2])] ∧
      avgStructs [("jump", [200, 2])] = some [⟨"jump", 100⟩] ∧
      (∀ k ∈ Table.keys [("jump", [200, 2])], asciiToLower k = k) ∧
      processEvent asciiToLower [("jump", [50, 1])] ⟨"Jump", 150⟩
        = processEvent asciiToLower [("jump", [50, 1])] ⟨"jump", 150⟩ :=
  have h := C6_keys_normalized asciiToLower asciiToLower_idem
  ⟨by decide, by decide,
    h.2.2 [⟨"Jump", 50⟩, ⟨"jump", 150⟩] [("jump", [200, 2])] (by decide),
    h.1 [("jump", [50, 1])] "Jump" "jump" 150 (by decide)⟩

/-- C7, amended: for every `K ≥ 1` with `K * (K + 1) / 2` within the range of `int` and
every order in which the `K` updates `record("jump", i)`, `i = 1..K`, are applied to a
table with no `jump` entry, the resulting `jump` entry has `count = K` and
`sum = K * (K + 1) / 2` and every other entry is as before, so `GetStats` reports
`avg = (K + 1) / 2` (truncated) for it: the loop body yields that record, and the whole
loop does whenever the other entries are pairs with `count ≥ 1`. -/
theorem C7_concurrent_jumps (ToLower : String → String) (K : Nat) (hK : 1 ≤ K)
    (hsum : (K : Int) * (K + 1) / 2 ≤ maxInt) (es : List Event) (hperm : es.Perm (jumps K))
    (data : Table) (hfresh : data.get (ToLower "jump") = none) :
    ∃ t, processEvents ToLower data es = some t ∧
      t.get (ToLower "jump") = some [(K : Int) * (K + 1) / 2, (K : Int)] ∧
      (∀ k, k ≠ ToLower "jump" → t.get k = data.get k) ∧
      avgEvent (ToLower "jump") [(K : Int) * (K + 1) / 2, (K : Int)]
        = some ⟨ToLower "jump", ((K : Int) + 1) / 2⟩ ∧
      (data.keys.Nodup → (∀ k v, data.get k = some v → ∃ s c, v = [s, c] ∧ 1 ≤ c) →
        ∃ recs, avgStructs t = some recs ∧
          (⟨ToLower "jump", ((K : Int) + 1) / 2⟩ : AvgEvent) ∈ recs ∧
          ∀ r ∈ recs, r.Event = ToLower "jump" → r.Avg = ((K : Int) + 1) / 2) := by
  have hKS : (K : Int) ≤ (K : Int) * (K + 1) / 2 := by
    apply Int.le_ediv_of_mul_le (by decide)
    have h1 : (1 : Int) ≤ K := by exact_mod_cast hK
    nlinarith
  have hKmax : (K : Int) ≤ maxInt := hKS.trans hsum
  have hall : ∀ e ∈ es, ToLower e.Event = ToLower "jump" ∧ IsInt e.Time := by
    intro e he
    obtain ⟨h1, h2, h3⟩ := mem_jumps (hperm.mem_iff.1 he)
    refine ⟨by rw [h1], ?_⟩
    unfold IsInt minInt
    unfold maxInt at hKmax ⊢
    omega
  have hlen : es.length = K := by rw [hperm.length_eq, length_jumps]
  have hne : es ≠ [] := by
    intro h
    rw [h] at hlen
    simp at hlen
    omega
  obtain ⟨t, ht, hget, hframe⟩ := processEvents_fresh ToLower _ es data hfresh hall hne
  have hS : (es.map Event.Time).sum = (K : Int) * (K + 1) / 2 := by
    have h2 := sum_jumps K
    rw [← (hperm.map Event.Time).sum_eq] at h2
    generalize (K : Int) * (K + 1) = X at h2 ⊢
    omega
  have hK1 : (1 : Int) ≤ K := by exact_mod_cast hK
  have hwS : wrapInt ((K : Int) * (K + 1) / 2) = (K : Int) * (K + 1) / 2 := by
    apply wrapInt_of_isInt
    unfold IsInt minInt
    unfold maxInt at hsum ⊢
    omega
  have hwK : wrapInt (K : Int) = K := by
    apply wrapInt_of_isInt
    unfold IsInt minInt
    unfold maxInt at hKmax ⊢
    omega
  rw [hS, hlen, hwS, hwK] at hget
  have havg : avgEvent (ToLower "jump") [(K : Int) * (K + 1) / 2, (K : Int)]
      = some ⟨ToLower "jump", ((K : Int) + 1) / 2⟩ := by
    rw [avgEvent_pair _ _ _ hK1, gauss_tdiv K hK]
  refine ⟨t, ht, hget, hframe, havg, fun hmap hpairs => ?_⟩
  have hpairs' : ∀ k v, t.get k = some v → ∃ s c, v = [s, c] ∧ 1 ≤ c := by
    intro k v hv
    by_cases hk : k = ToLower "jump"
    · rw [hk, hget] at hv
      exact ⟨_, _, (Option.some.inj hv).symm, hK1⟩
    · rw [hframe k hk] at hv
      exact hpairs k v hv
  obtain ⟨recs, hrecs, _, hchar⟩ :=
    avgStructs_of_map t (processEvents_nodup ToLower es data t hmap ht) hpairs'
  refine ⟨recs, hrecs, (hchar _).2 ⟨_, _, hget, (gauss_tdiv K hK).symm⟩, fun r hr hrk => ?_⟩
  obtain ⟨s, c, hsc, hr'⟩ := (hchar r).1 hr
  rw [hrk, hget] at hsc
  simp only [Option.some.injEq, List.cons.injEq, and_true] at hsc
  rw [hr', ← hsc.1, ← hsc.2, gauss_tdiv K hK]

/-- Witness of C7: `K = 100` on the empty table gives the average `50`, as in
`TestPublishEventMultipleEntryConcurrent`. -/
theorem C7_concurrent_jumps_witness :
    ∃ t recs, processEvents asciiToLower [] (jumps 100) = some t ∧
      t.get "jump" = some [5050, 100] ∧ avgStructs t = some recs ∧
      (⟨"jump", 50⟩ : AvgEvent) ∈ recs :=
  have h := C7_concurrent_jumps asciiToLower 100 (by decide) (by simp [maxInt])
    (jumps 100) (List.Perm.refl _) [] rfl
  let ⟨t, h1, h2, _, _, h5⟩ := h
  let ⟨recs, h6, h7, _⟩ := h5 (by simp [Table.keys]) (by simp [Table.get])
  ⟨t, recs, h1, h2, h6, h7⟩

/-- Counterexample to C7 as stated: `K = 2^32`, applied in increasing order to the empty
table; `K * (K + 1) / 2 = 9223372039002259456` exceeds the largest `int`, the stored sum
is `-9223372034707292160` and the record of `GetStats` is `-2147483647`, not
`(K + 1) / 2 = 2147483648`. -/
theorem C7_counterexample :
    ∃ t, processEvents asciiToLower [] (jumps 4294967296) = some t ∧
      t.get "jump" = some [-9223372034707292160, 4294967296] ∧
      avgEvent "jump" [-9223372034707292160, 4294967296] = some ⟨"jump", -2147483647⟩ ∧
      ((4294967296 : Nat) : Int) * (4294967296 + 1) / 2 = 9223372039002259456 ∧
      (((4294967296 : Nat) : Int) + 1) / 2 = 2147483648 := by
  have hkey : asciiToLower "jump" = "jump" := by decide
  have hall : ∀ e ∈ jumps 4294967296, asciiToLower e.Event = "jump" ∧ IsInt e.Time := by
    intro e he
    obtain ⟨h1, h2, h3⟩ := mem_jumps he
    refine ⟨by rw [h1, hkey], ?_⟩
    unfold IsInt minInt maxInt
    omega
  have hne : jumps 4294967296 ≠ [] := by
    intro h
    have := length_jumps 4294967296
    rw [h] at this
    simp at this
  obtain ⟨t, ht, hget, _⟩ := processEvents_fresh asciiToLower "jump" (jumps 4294967296) []
    rfl hall hne
  have hS : ((jumps 4294967296).map Event.Time).sum = 9223372039002259456 := by
    have h2 := sum_jumps 4294967296
    omega
  have hw1 : wrapInt 9223372039002259456 = -9223372034707292160 := by
    unfold wrapInt
    omega
  have hw2 : wrapInt ((4294967296 : Nat) : Int) = 4294967296 := by
    unfold wrapInt
    omega
  rw [hS, length_jumps, hw1, hw2] at hget
  exact ⟨t, ht, hget, by decide, by omega, by omega⟩

/-- C8: for every successfully decoded event, `PublishEvent` (through `validateEvent`)
returns a failure if and only if the event name is the empty string or the duration is
less than zero; a duration of `0` with a non-empty name is accepted and the empty name
(what a missing `"event"` field decodes to) is rejected. -/
theorem C8_validation_iff (Unmarshal : String → Except String Event)
    (ToLower : String → String) (data : Table) (input : String) (e : Event)
    (hdec : Unmarshal input = .ok e) :
    ((∃ err data', PublishEvent Unmarshal ToLower data input = some (some err, data'))
        ↔ e.Event = "" ∨ e.Time < 0) ∧
      ((validateEvent e).isSome ↔ e.Event = "" ∨ e.Time < 0) ∧
      (e.Event ≠ "" → e.Time = 0 → validateEvent e = none) ∧
      (e.Event = "" → ∃ err, PublishEvent Unmarshal ToLower data input
        = some (some err, data)) := by
  have hiff : (validateEvent e).isSome ↔ e.Event = "" ∨ e.Time < 0 := by
    have hnone := validateEvent_eq_none_iff e
    constructor
    · intro h
      by_contra hc
      push_neg at hc
      rw [hnone.2 ⟨hc.1, hc.2⟩] at h
      simp at h
    · intro h
      cases hv : validateEvent e with
      | some _ => rfl
      | none =>
        have hok := hnone.1 hv
        rcases h with h | h
        · exact absurd h hok.1
        · omega
  have hfail : e.Event = "" ∨ e.Time < 0 →
      ∃ err, PublishEvent Unmarshal ToLower data input = some (some err, data) := by
    intro h
    obtain ⟨err, herr⟩ := Option.isSome_iff_exists.1 (hiff.2 h)
    exact ⟨err, by simp [PublishEvent, hdec, herr]⟩
  refine ⟨⟨?_, fun h => ?_⟩, hiff, ?_, fun h => hfail (Or.inl h)⟩
  · rintro ⟨err, data', h⟩
    by_contra hc
    push_neg at hc
    have hpub := PublishEvent_of_valid Unmarshal ToLower data input e hdec hc.1 hc.2
    rw [hpub] at h
    cases hp : processEvent ToLower data e <;> simp [hp] at h
  · obtain ⟨err, herr⟩ := hfail h
    exact ⟨err, data, herr⟩
  · intro h1 h2
    exact (validateEvent_eq_none_iff e).2 ⟨h1, by omega⟩

/-- Witness of C8: the input of `TestInvalidJsonActionEmpty`, whose name is empty, is
rejected. -/
theorem C8_validation_iff_witness :
    ∃ err, PublishEvent testUnmarshal asciiToLower [] "\x7b\"event\":\"\"\x7d"
      = some (some err, []) :=
  (C8_validation_iff testUnmarshal asciiToLower [] "\x7b\"event\":\"\"\x7d" ⟨"", 0⟩
    (by rfl)).2.2.2 rfl

/-- C9: all-or-nothing per call: for every table and every input, if `PublishEvent`
returns a non-nil error (from decoding or from validation) then the table after the call
is the table before the call. -/
theorem C9_error_leaves_table (Unmarshal : String → Except String Event)
    (ToLower : String → String) (data data' : Table) (input err : String)
    (h : PublishEvent Unmarshal ToLower data input = some (some err, data')) :
    data' = data := by
  unfold PublishEvent at h
  cases hd : Unmarshal input with
  | error msg =>
    simp [hd] at h
    exact h.2.symm
  | ok e =>
    cases hv : validateEvent e with
    | some verr =>
      simp [hd, hv] at h
      exact h.2.symm
    | none =>
      cases hp : processEvent ToLower data e <;> simp [hd, hv, hp] at h

/-- Witness of C9: the out-of-range input of `TestInvalidJsonTimeLimit` on a table that
holds `jump ↦ (100, 1)`. -/
theorem C9_error_leaves_table_witness :
    PublishEvent testUnmarshal asciiToLower [("jump", [100, 1])]
        "\x7b\"event\":\"jump\", \"time\":922337203685477580900\x7d"
      = some (some ("json: cannot unmarshal number 922337203685477580900 into Go struct field "
          ++ "Event.time of type int"), [("jump", [100, 1])]) ∧
    ([("jump", [100, 1])] : Table) = [("jump", [100, 1])] :=
  ⟨by rfl, C9_error_leaves_table testUnmarshal asciiToLower [("jump", [100, 1])]
    [("jump", [100, 1])] "\x7b\"event\":\"jump\", \"time\":922337203685477580900\x7d"
    ("json: cannot unmarshal number 922337203685477580900 into Go struct field "
      ++ "Event.time of type int") (by rfl)⟩

/-- C10: `count ≥ 1` for every present key: every entry of every table reached from the
empty table by a sequence of `PublishEvent` / `processEvent` calls is a pair with
`count ≥ 1` and at most the number of calls, and none of these calls panics; a further
`processEvent` inserts a new key with count `1` and adds `1` to the count of a key that
is present. The sequence is one that a run can make: its length is within the range of
the `int` that counts the calls. -/
theorem C10_count_pos (Unmarshal : String → Except String Event)
    (ToLower : String → String) (calls : List Call)
    (hlen : (calls.length : Int) ≤ maxInt) :
    ∃ t, run Unmarshal ToLower [] calls = some t ∧
      (∀ k v, t.get k = some v → ∃ s c, v = [s, c] ∧ 1 ≤ c ∧ c ≤ calls.length) ∧
      ((calls.length : Int) < maxInt → ∀ e, ∃ t', processEvent ToLower t e = some t' ∧
        (t.get (ToLower e.Event) = none → t'.get (ToLower e.Event) = some [e.Time, 1]) ∧
        ∀ k s c, t.get k = some [s, c] →
          ∃ s', t'.get k = some [s', if k = ToLower e.Event then c + 1 else c]) := by
  obtain ⟨t, ht, hinv⟩ := run_counts Unmarshal ToLower calls [] 0 (le_refl 0)
    (by intro k v hv; simp [Table.get] at hv) (by omega)
  refine ⟨t, ht, fun k v hv => ?_, fun hlt e => ?_⟩
  · obtain ⟨s, c, rfl, h1, h2⟩ := hinv k v hv
    exact ⟨s, c, rfl, h1, by omega⟩
  · exact processEvent_count_grows ToLower t e _ (by omega) hinv

/-- Witness of C10: a rejected input, a published event and a direct `processEvent`. -/
theorem C10_count_pos_witness :
    ∃ t, run testUnmarshal asciiToLower []
        [Call.publish "\x7b\"event\":\"jump\", \"time\":-100\x7d",
          Call.publish "\x7b\"event\":\"jump\", \"time\":100\x7d",
          Call.process ⟨"Jump", 200⟩] = some t ∧
      ∀ k v, t.get k = some v → ∃ s c, v = [s, c] ∧ 1 ≤ c ∧ c ≤ (3 : Nat) :=
  have h := C10_count_pos testUnmarshal asciiToLower
    [Call.publish "\x7b\"event\":\"jump\", \"time\":-100\x7d",
      Call.publish "\x7b\"event\":\"jump\", \"time\":100\x7d",
      Call.process ⟨"Jump", 200⟩] (by simp [maxInt])
  let ⟨t, h1, h2, _⟩ := h
  ⟨t, h1, h2⟩

/-- C11, amended: for every sequence of valid events (each duration a non-negative Go
int) applied to the empty table, the stored sum for each key is the mathematical sum of
the durations recorded under that key reduced to the 64-bit `int` by two's-complement
wrap-around; it equals the exact sum whenever that sum is within the range of `int`. -/
theorem C11_sum_exact_in_range (ToLower : String → String) (es : List Event)
    (hvalid : ∀ e ∈ es, e.Event ≠ "" ∧ 0 ≤ e.Time ∧ e.Time ≤ maxInt) :
    ∃ t, processEvents ToLower [] es = some t ∧
      ∀ k, (∃ e ∈ es, ToLower e.Event = k) →
        ∃ c, t.get k = some [wrapInt (totalAt ToLower k es), c] ∧
          (totalAt ToLower k es ≤ maxInt → t.get k = some [totalAt ToLower k es, c]) := by
  have hes : ∀ e ∈ es, IsInt e.Time := by
    intro e he
    obtain ⟨_, h1, h2⟩ := hvalid e he
    unfold IsInt minInt
    exact ⟨by omega, h2⟩
  obtain ⟨t, ht, _, hget⟩ := processEvents_nil ToLower es hes
  refine ⟨t, ht, fun k hk => ⟨wrapInt (countAt ToLower k es), ?_, fun hle => ?_⟩⟩
  · rw [hget k, if_neg ((countAt_pos_iff ToLower k es).2 hk)]
  · have h0 := totalAt_nonneg ToLower k es fun e he => (hvalid e he).2.1
    have hS : IsInt (totalAt ToLower k es) := by
      unfold IsInt minInt
      exact ⟨by omega, hle⟩
    rw [hget k, if_neg ((countAt_pos_iff ToLower k es).2 hk), wrapInt_of_isInt hS]

/-- Witness of C11: `jump 100`, `run 75`, `jump 200`, `jump 300` store the sum `600`
under `jump`. -/
theorem C11_sum_exact_in_range_witness :
    ∃ t, processEvents asciiToLower []
        [⟨"jump", 100⟩, ⟨"run", 75⟩, ⟨"jump", 200⟩, ⟨"jump", 300⟩] = some t ∧
      ∃ c, t.get "jump" = some [600, c] :=
  have h := C11_sum_exact_in_range asciiToLower
    [⟨"jump", 100⟩, ⟨"run", 75⟩, ⟨"jump", 200⟩, ⟨"jump", 300⟩]
    (by
      intro e he
      simp only [List.mem_cons, List.mem_singleton, List.not_mem_nil, or_false] at he
      rcases he with h | h | h | h <;> subst h <;> simp [maxInt])
  let ⟨t, h1, h2⟩ := h
  let ⟨c, _, h4⟩ := h2 "jump" ⟨⟨"jump", 100⟩, by simp, by decide⟩
  ⟨t, h1, c, h4 (by
    have : totalAt asciiToLower "jump"
        [⟨"jump", 100⟩, ⟨"run", 75⟩, ⟨"jump", 200⟩, ⟨"jump", 300⟩] = 600 := by decide
    rw [this]
    simp [maxInt])⟩

/-- Counterexample to C11 as stated: two valid events `jump` with the largest duration
`2^63 - 1`; the stored sum is `-2`, the mathematical sum is `2^64 - 2`. -/
theorem C11_counterexample :
    processEvents asciiToLower []
        [⟨"jump", 9223372036854775807⟩, ⟨"jump", 9223372036854775807⟩]
        = some [("jump", [-2, 2])] ∧
      totalAt asciiToLower "jump"
        [⟨"jump", 9223372036854775807⟩, ⟨"jump", 9223372036854775807⟩]
        = 18446744073709551614 := by
  constructor <;> decide

/-- C12: `processEvent` never removes a key and changes only one entry: for every table
and event, after the call every key present before is present, and every entry whose
key differs from `ToLower(event name)` is unchanged; the call completes exactly when the
entry at its key, if present, has the two elements it indexes. -/
theorem C12_processEvent_frame (ToLower : String → String) (data : Table) (e : Event) :
    (∀ data', processEvent ToLower data e = some data' →
      (∀ k, (data.get k).isSome → (data'.get k).isSome) ∧
        (∀ k ∈ data.keys, k ∈ data'.keys) ∧
        (∀ k, k ≠ ToLower e.Event → data'.get k = data.get k)) ∧
    ((∃ data', processEvent ToLower data e = some data') ↔
      ∀ v, data.get (ToLower e.Event) = some v → 2 ≤ v.length) := by
  refine ⟨fun data' h => ?_, ⟨fun hsome v hv => ?_, fun hshape => ?_⟩⟩
  · obtain ⟨hself, hframe, hkeys⟩ := processEvent_frame h
    refine ⟨fun k hk => ?_, fun k hk => ?_, hframe⟩
    · by_cases hke : k = ToLower e.Event
      · rw [hke]
        exact hself
      · rw [hframe k hke]
        exact hk
    · rw [hkeys]
      by_cases hmem : ToLower e.Event ∈ data.keys
      · simpa [hmem] using hk
      · simp only [hmem, if_false]
        exact List.mem_append_left _ hk
  · obtain ⟨data', h⟩ := hsome
    unfold processEvent at h
    simp only [hv] at h
    match v with
    | [] => simp at h
    | [_] => simp at h
    | _ :: _ :: _ => simp
  · obtain ⟨v, _, _, hstep⟩ := processEvent_eq ToLower data e hshape
    exact ⟨_, hstep⟩

/-- Witness of C12: `jump 200` on the table with `jump ↦ (100, 1)` and `run ↦ (75, 1)`
keeps both keys and leaves `run` as it was. -/
theorem C12_processEvent_frame_witness :
    ∃ data', processEvent asciiToLower [("jump", [100, 1]), ("run", [75, 1])] ⟨"jump", 200⟩
        = some data' ∧
      "jump" ∈ data'.keys ∧ "run" ∈ data'.keys ∧ data'.get "run" = some [75, 1] :=
  have h := C12_processEvent_frame asciiToLower [("jump", [100, 1]), ("run", [75, 1])]
    ⟨"jump", 200⟩
  have hp : processEvent asciiToLower [("jump", [100, 1]), ("run", [75, 1])] ⟨"jump", 200⟩
      = some [("jump", [300, 2]), ("run", [75, 1])] := by decide
  let ⟨_, h2, h3⟩ := h.1 _ hp
  ⟨_, hp, h2 "jump" (by decide), h2 "run" (by decide),
    (h3 "run" (by decide)).trans (by decide)⟩

/-- C13: `GetStats` performs no mutation: for every table, the table after `GetStats` is
the table before it, so a second `GetStats` with no publish in between returns the same
output; in whatever order the map is visited, the collected records are the same up to
order; and the call completes whenever every entry has two elements with a non-zero
second one. -/
theorem C13_GetStats_pure (Marshal : AvgEvents → String) (data : Table) :
    (∀ out data', GetStats Marshal data = some (out, data') →
      data' = data ∧ GetStats Marshal data' = some (out, data')) ∧
    (∀ data2 recs, data.Perm data2 → avgStructs data = some recs →
      ∃ recs2, avgStructs data2 = some recs2 ∧ recs.Perm recs2) ∧
    ((∀ p ∈ data, ∃ s c rest, p.2 = s :: c :: rest ∧ c ≠ 0) →
      ∃ out, GetStats Marshal data = some (out, data)) := by
  refine ⟨fun out data' h => ?_, fun data2 recs hperm h => avgStructs_perm hperm recs h,
    fun hshape => ?_⟩
  · unfold GetStats at h
    cases hrecs : avgStructs data with
    | none => simp [hrecs] at h
    | some recs =>
      simp only [hrecs, Option.map_some', Option.some.injEq, Prod.mk.injEq] at h
      obtain ⟨h1, h2⟩ := h
      subst h2
      exact ⟨rfl, by simp [GetStats, hrecs, h1]⟩
  · obtain ⟨recs, hrecs⟩ := avgStructs_of_nonzero data hshape
    exact ⟨Marshal recs, by simp [GetStats, hrecs]⟩

/-- Witness of C13: `GetStats` on the table of `TestPublishEventMultipleEntry` leaves it
as it is and a second call returns the same text. -/
theorem C13_GetStats_pure_witness :
    GetStats (marshalAvgEvents plainQuote) [("jump", [600, 3]), ("run", [75, 1])]
        = some ("[\x7b\"event\":\"jump\",\"avg\":200\x7d,\x7b\"event\":\"run\",\"avg\":75\x7d]",
          [("jump", [600, 3]), ("run", [75, 1])]) ∧
      ([("jump", [600, 3]), ("run", [75, 1])] : Table) = [("jump", [600, 3]), ("run", [75, 1])] ∧
      GetStats (marshalAvgEvents plainQuote) [("jump", [600, 3]), ("run", [75, 1])]
        = some ("[\x7b\"event\":\"jump\",\"avg\":200\x7d,\x7b\"event\":\"run\",\"avg\":75\x7d]",
          [("jump", [600, 3]), ("run", [75, 1])]) :=
  have hg : GetStats (marshalAvgEvents plainQuote) [("jump", [600, 3]), ("run", [75, 1])]
      = some ("[\x7b\"event\":\"jump\",\"avg\":200\x7d,\x7b\"event\":\"run\",\"avg\":75\x7d]",
        [("jump", [600, 3]), ("run", [75, 1])]) := by decide
  have h := (C13_GetStats_pure (marshalAvgEvents plainQuote)
    [("jump", [600, 3]), ("run", [75, 1])]).1 _ _ hg
  ⟨hg, h.1, h.2⟩

/-- C14: `GetStats` on a table with no entries yields an empty result: the collected
record list is empty, the call does not fail, the table stays empty, and the text
returned is what `json.Marshal` makes of the empty non-nil slice, the JSON array `[]`. -/
theorem C14_GetStats_empty (Marshal : AvgEvents → String) (quote : String → String) :
    avgStructs [] = some [] ∧
      GetStats Marshal [] = some (Marshal [], []) ∧
      GetStats (marshalAvgEvents quote) [] = some ("[]", []) := by
  refine ⟨rfl, rfl, ?_⟩
  simp [GetStats, avgStructs, marshalAvgEvents, String.intercalate]

/-- C16, amended: for every input JSON object, `PublishEvent` ignores the members whose
key is neither `event` nor `time` up to the case of its letters and the members whose
value is `null`, and, when a field is repeated, uses its last occurrence that is not
`null`; a member of one of the two fields with a value of another kind makes the call
return an error. Publishing the input of `TestJsonExtraAndDuplicateData` to the empty
table returns `nil` and `GetStats` yields exactly `[{"event":"jump","avg":200}]`. -/
theorem C16_extra_and_duplicate_fields (parse : String → Except String JsonText)
    (ToLower : String → String) (Marshal : AvgEvents → String) (input : String)
    (members : List (String × JsonValue))
    (hparse : parse input = .ok (JsonText.object members)) :
    unmarshalEvent tagField parse input
        = decodeMembers tagField ⟨"", 0⟩ (members.filter countsFor) ∧
    ((∀ m ∈ members, fitsField m = true) →
      unmarshalEvent tagField parse input
          = .ok ⟨(lastEvent members).getD "", (lastTime members).getD 0⟩ ∧
        ((lastEvent members).getD "" ≠ "" → 0 ≤ (lastTime members).getD 0 →
          PublishEvent (unmarshalEvent tagField parse) ToLower [] input
              = some (none, [(ToLower ((lastEvent members).getD ""),
                  [(lastTime members).getD 0, 1])]) ∧
            GetStats Marshal [(ToLower ((lastEvent members).getD ""),
                [(lastTime members).getD 0, 1])]
              = some (Marshal [⟨ToLower ((lastEvent members).getD ""),
                  (lastTime members).getD 0⟩],
                [(ToLower ((lastEvent members).getD ""), [(lastTime members).getD 0, 1])]))) ∧
    ((∃ m ∈ members, fitsField m = false) → ∀ data,
      ∃ err, PublishEvent (unmarshalEvent tagField parse) ToLower data input
        = some (some err, data)) ∧
    PublishEvent (unmarshalEvent tagField parseJson) asciiToLower []
        ("\x7b\"event\":\"jump\", \"fox\":\"ran\", \"5\":34, \"time\":150, "
          ++ "\"Valid\": \"string\", \"time\":200\x7d")
      = some (none, [("jump", [200, 1])]) ∧
    GetStats (marshalAvgEvents plainQuote) [("jump", [200, 1])]
      = some ("[\x7b\"event\":\"jump\",\"avg\":200\x7d]", [("jump", [200, 1])]) := by
  have hun : unmarshalEvent tagField parse input = decodeMembers tagField ⟨"", 0⟩ members := by
    simp only [unmarshalEvent, hparse]
  refine ⟨?_, fun hfits => ?_, fun hbad data => ?_, by rfl, by decide⟩
  · rw [hun, decodeMembers_countsFor]
  · have hok := decodeMembers_of_fits members ⟨"", 0⟩ hfits
    rw [← hun] at hok
    refine ⟨hok, fun hname htime => ?_⟩
    have hpub := PublishEvent_of_valid (unmarshalEvent tagField parse) ToLower [] input _ hok
      hname htime
    refine ⟨?_, ?_⟩
    · rw [hpub]
      simp [processEvent, Table.get, Table.put]
    · simp [GetStats, avgStructs, avgEvent_pair _ _ 1 (le_refl 1)]
  · obtain ⟨err, herr⟩ := decodeMembers_of_not_fits members ⟨"", 0⟩ hbad
    rw [← hun] at herr
    exact ⟨err, by simp [PublishEvent, herr]⟩

/-- Witness of C16: the input of `TestJsonExtraAndDuplicateData`, read by `parseJson`;
`fox`, `5` and `Valid` are ignored, the second `time` member decides, and the text that
`GetStats` returns is the one the test expects. -/
theorem C16_extra_and_duplicate_fields_witness :
    PublishEvent (unmarshalEvent tagField parseJson) asciiToLower []
        ("\x7b\"event\":\"jump\", \"fox\":\"ran\", \"5\":34, \"time\":150, "
          ++ "\"Valid\": \"string\", \"time\":200\x7d")
      = some (none, [("jump", [200, 1])]) ∧
    GetStats (marshalAvgEvents plainQuote) [("jump", [200, 1])]
      = some ("[\x7b\"event\":\"jump\",\"avg\":200\x7d]", [("jump", [200, 1])]) :=
  have h := (C16_extra_and_duplicate_fields parseJson asciiToLower (marshalAvgEvents plainQuote)
    ("\x7b\"event\":\"jump\", \"fox\":\"ran\", \"5\":34, \"time\":150, "
      ++ "\"Valid\": \"string\", \"time\":200\x7d")
    [("event", JsonValue.string "jump"), ("fox", JsonValue.string "ran"),
      ("5", JsonValue.integer 34), ("time", JsonValue.integer 150),
      ("Valid", JsonValue.string "string"), ("time", JsonValue.integer 200)]
    (by rfl)).2.1 (by decide)
  have h2 := h.2 (by decide) (by decide)
  ⟨h2.1.trans (by decide), h2.2.trans (by decide)⟩

/-- Counterexample to C16 as stated: the member `TIME` is a field other than `time` and
is not ignored, it decides the duration `7`; and a last occurrence `null` of `time` is
not the one used, the duration stays `150`. -/
theorem C16_counterexample :
    PublishEvent (unmarshalEvent tagField parseJson) asciiToLower []
        "\x7b\"event\":\"jump\", \"time\":150, \"TIME\":7\x7d"
      = some (none, [("jump", [7, 1])]) ∧
    PublishEvent (unmarshalEvent tagField parseJson) asciiToLower []
        "\x7b\"event\":\"jump\", \"time\":150, \"time\":null\x7d"
      = some (none, [("jump", [150, 1])]) := by
  constructor <;> rfl

/-- C17: `validateEvent` reports the failing field in its error message and checks the
name first: for an event with empty name, whatever its time, the error text is
`Invaild event: ` followed by the name; for an event with non-empty name and time
`t < 0` it is `Invaild time value: ` followed by the decimal rendering of `t` (a minus
sign and the digits of `|t|`); `PublishEvent` returns that error. -/
theorem C17_validateEvent_messages (e : Event) :
    (e.Event = "" → validateEvent e = some ("Invaild event: " ++ e.Event) ∧
      validateEvent e = some "Invaild event: ") ∧
    (e.Event ≠ "" → e.Time < 0 →
      validateEvent e = some ("Invaild time value: " ++ toString e.Time) ∧
        toString e.Time = "-" ++ Nat.repr e.Time.natAbs) ∧
    (∀ (Unmarshal : String → Except String Event) (ToLower : String → String) (data : Table)
      (input msg : String), Unmarshal input = .ok e → validateEvent e = some msg →
      PublishEvent Unmarshal ToLower data input = some (some msg, data)) := by
  refine ⟨fun h => ?_, fun h1 h2 => ⟨?_, ?_⟩, fun Unmarshal ToLower data input msg hd hv => ?_⟩
  · simp [validateEvent, h]
  · simp [validateEvent, h1, h2]
  · obtain ⟨name, t⟩ := e
    simp only at h2 ⊢
    cases t with
    | ofNat m =>
      have : (0 : Int) ≤ Int.ofNat m := Int.ofNat_nonneg m
      omega
    | negSucc m => rfl
  · simp [PublishEvent, hd, hv]

/-- Witness of C17: the events of `TestInvalidJsonTime` and `TestInvalidJsonActionEmpty`,
and an event with empty name and negative time. -/
theorem C17_validateEvent_messages_witness :
    validateEvent ⟨"jump", -100⟩ = some "Invaild time value: -100" ∧
      validateEvent ⟨"", 0⟩ = some "Invaild event: " ∧
      validateEvent ⟨"", -100⟩ = some "Invaild event: " :=
  ⟨((C17_validateEvent_messages ⟨"jump", -100⟩).2.1 (by decide) (by decide)).1.trans (by decide),
    ((C17_validateEvent_messages ⟨"", 0⟩).1 rfl).2,
    ((C17_validateEvent_messages ⟨"", -100⟩).1 rfl).2⟩

/-- C18: `GetStats` cannot fail on a reachable state: in every table reached from the
empty table through `processEvent` (durations being Go ints), every value is a list of
exactly two integers whose second element is non-zero, so the accesses `val[0]`,
`val[1]` and the division `val[0] / val[1]` in `GetStats` and the indexed updates of a
further `processEvent` neither go out of range nor divide by zero: both calls complete.
The sequence of calls is one that a run can make: it is shorter than the `2^64` values
of the `int` that counts the calls. -/
theorem C18_reachable_safe (ToLower : String → String) (es : List Event)
    (hint : ∀ e ∈ es, IsInt e.Time) (hlen : es.length < 18446744073709551616) :
    ∃ t, processEvents ToLower [] es = some t ∧
      (∀ k v, t.get k = some v → ∃ s c, v = [s, c] ∧ c ≠ 0) ∧
      (∃ recs, avgStructs t = some recs) ∧
      (∀ Marshal : AvgEvents → String, ∃ out, GetStats Marshal t = some (out, t)) ∧
      (∀ e, ∃ t', processEvent ToLower t e = some t') := by
  obtain ⟨t, ht, _, _, hshape, recs, hrecs⟩ := processEvents_nil_safe ToLower es hint hlen
  refine ⟨t, ht, hshape, ⟨recs, hrecs⟩, fun Marshal => ⟨Marshal recs, ?_⟩, fun e => ?_⟩
  · simp [GetStats, hrecs]
  · obtain ⟨v, _, _, hstep⟩ := processEvent_eq ToLower t e (by
      intro v hv
      obtain ⟨s, c, rfl, _⟩ := hshape _ v hv
      simp)
    exact ⟨_, hstep⟩

/-- Witness of C18: the table after `jump 100` and `Jump 200`. -/
theorem C18_reachable_safe_witness :
    ∃ t, processEvents asciiToLower [] [⟨"jump", 100⟩, ⟨"Jump", 200⟩] = some t ∧
      (∀ k v, t.get k = some v → ∃ s c, v = [s, c] ∧ c ≠ 0) ∧
      (∃ recs, avgStructs t = some recs) :=
  have h := C18_reachable_safe asciiToLower [⟨"jump", 100⟩, ⟨"Jump", 200⟩]
    (by
      intro e he
      simp only [List.mem_cons, List.mem_singleton, List.not_mem_nil, or_false] at he
      rcases he with h | h <;> subst h <;> simp [IsInt, minInt, maxInt])
    (by simp)
  let ⟨t, h1, h2, h3, _⟩ := h
  ⟨t, h1, h2, h3⟩

/-- C19: for every list of inputs published with `PublishEvent` to the empty table (so
every applied duration is `≥ 0`) whose per-key sums stay within int range, `GetStats`
returns the marshalled records, one for every key recorded, and the average it reports
for a key is `≥ 0` and lies between the smallest and the largest duration recorded under
that key. The list is one that a run can publish: the number of accepted events is
within the range of the `int` that counts them. -/
theorem C19_avg_between_min_max (Unmarshal : String → Except String Event)
    (ToLower : String → String) (Marshal : AvgEvents → String) (inputs : List String)
    (hsum : ∀ k, totalAt ToLower k (accepted Unmarshal inputs) ≤ maxInt)
    (hlen : ((accepted Unmarshal inputs).length : Int) ≤ maxInt) :
    ∃ t recs, publishEvents Unmarshal ToLower [] inputs
        = some (inputs.map (errorOf Unmarshal), t) ∧
      GetStats Marshal t = some (Marshal recs, t) ∧
      avgStructs t = some recs ∧
      (∀ k, (∃ e ∈ accepted Unmarshal inputs, ToLower e.Event = k) →
        ∃ r ∈ recs, r.Event = k) ∧
      ∀ r ∈ recs, 0 ≤ r.Avg ∧
        minTime (eventsAt ToLower r.Event (accepted Unmarshal inputs)) ≤ r.Avg ∧
        r.Avg ≤ maxTime (eventsAt ToLower r.Event (accepted Unmarshal inputs)) := by
  have hvalid := accepted_valid Unmarshal inputs
  have hnn : ∀ e ∈ accepted Unmarshal inputs, 0 ≤ e.Time := fun e he => (hvalid e he).2
  obtain ⟨t, ht, hn, hget⟩ :=
    processEvents_nil_exact ToLower (accepted Unmarshal inputs) hnn hsum hlen
  have hcpos : ∀ k, (∃ e ∈ accepted Unmarshal inputs, ToLower e.Event = k) →
      (1 : Int) ≤ countAt ToLower k (accepted Unmarshal inputs) := by
    intro k hk
    have := (countAt_pos_iff ToLower k (accepted Unmarshal inputs)).2 hk
    omega
  have hpairs : ∀ k v, t.get k = some v → ∃ s c, v = [s, c] ∧ 1 ≤ c := by
    intro k v hv
    obtain ⟨hk, rfl⟩ := (hget k v).1 hv
    exact ⟨_, _, rfl, hcpos k hk⟩
  obtain ⟨recs, hrecs, _, hchar⟩ := avgStructs_of_map t hn hpairs
  refine ⟨t, recs, ?_, by simp [GetStats, hrecs], hrecs, fun k hk => ?_, fun r hr => ?_⟩
  · rw [publishEvents_accepted, ht]
    rfl
  · exact ⟨⟨k, _⟩, (hchar ⟨k, _⟩).2 ⟨_, _, (hget k _).2 ⟨hk, rfl⟩, rfl⟩, rfl⟩
  · obtain ⟨s, c, hsc, havg⟩ := (hchar r).1 hr
    obtain ⟨hk, hv⟩ := (hget _ _).1 hsc
    simp only [List.cons.injEq, and_true] at hv
    obtain ⟨rfl, rfl⟩ := hv
    have hS := totalAt_nonneg ToLower r.Event (accepted Unmarshal inputs) hnn
    have hc := hcpos r.Event hk
    have hc0 : (0 : Int) < countAt ToLower r.Event (accepted Unmarshal inputs) := by omega
    rw [havg, Int.tdiv_eq_ediv hS (by omega)]
    have hmin := length_mul_minTime_le (eventsAt ToLower r.Event (accepted Unmarshal inputs))
    have hmax := sum_le_length_mul_maxTime
      (eventsAt ToLower r.Event (accepted Unmarshal inputs))
    refine ⟨Int.ediv_nonneg hS (by omega), ?_, ?_⟩
    · apply Int.le_ediv_of_mul_le hc0
      rw [mul_comm]
      exact hmin
    · apply Int.ediv_le_of_le_mul hc0
      rw [mul_comm]
      exact hmax

/-- Witness of C19: the inputs of `TestPublishEventMultipleEntry` with the rejected input
of `TestInvalidJsonTime` among them; every reported average is `≥ 0` and between the
extremes of its key. -/
theorem C19_avg_between_min_max_witness :
    ∃ t recs, publishEvents testUnmarshal asciiToLower []
        ["\x7b\"event\":\"jump\", \"time\":100\x7d",
          "\x7b\"event\":\"jump\", \"time\":-100\x7d",
          "\x7b\"event\":\"run\", \"time\":75\x7d",
          "\x7b\"event\":\"jump\", \"time\":200\x7d",
          "\x7b\"event\":\"jump\", \"time\":300\x7d"]
        = some ([none, some "Invaild time value: -100", none, none, none], t) ∧
      GetStats (marshalAvgEvents plainQuote) t
        = some (marshalAvgEvents plainQuote recs, t) ∧
      (∃ r ∈ recs, r.Event = "jump") ∧
      ∀ r ∈ recs, 0 ≤ r.Avg :=
  have hacc : accepted testUnmarshal
      ["\x7b\"event\":\"jump\", \"time\":100\x7d",
        "\x7b\"event\":\"jump\", \"time\":-100\x7d",
        "\x7b\"event\":\"run\", \"time\":75\x7d",
        "\x7b\"event\":\"jump\", \"time\":200\x7d",
        "\x7b\"event\":\"jump\", \"time\":300\x7d"]
      = [⟨"jump", 100⟩, ⟨"run", 75⟩, ⟨"jump", 200⟩, ⟨"jump", 300⟩] := by decide
  have h := C19_avg_between_min_max testUnmarshal asciiToLower (marshalAvgEvents plainQuote)
    ["\x7b\"event\":\"jump\", \"time\":100\x7d",
      "\x7b\"event\":\"jump\", \"time\":-100\x7d",
      "\x7b\"event\":\"run\", \"time\":75\x7d",
      "\x7b\"event\":\"jump\", \"time\":200\x7d",
      "\x7b\"event\":\"jump\", \"time\":300\x7d"]
    (fun k => by
      rw [hacc]
      exact (totalAt_le_sum asciiToLower k _ (by decide)).trans (by simp [maxInt]))
    (by
      rw [hacc]
      simp [maxInt])
  have herrs : List.map (errorOf testUnmarshal)
      ["\x7b\"event\":\"jump\", \"time\":100\x7d",
        "\x7b\"event\":\"jump\", \"time\":-100\x7d",
        "\x7b\"event\":\"run\", \"time\":75\x7d",
        "\x7b\"event\":\"jump\", \"time\":200\x7d",
        "\x7b\"event\":\"jump\", \"time\":300\x7d"]
      = [none, some "Invaild time value: -100", none, none, none] := by decide
  let ⟨t, recs, h1, h2, _, h3, h4⟩ := h
  ⟨t, recs, herrs ▸ h1, h2,
    h3 "jump" (by
      rw [hacc]
      exact ⟨⟨"jump", 100⟩, by simp, by decide⟩),
    fun r hr => (h4 r hr).1⟩

end events
